import Mathlib

/-!
# Parser of technoboom/compiler

A shallow embedding of `parser/parser.go`: the two-token lookahead window, the
`expectPeek` check, the statement dispatcher and the top-level loop
`ParseProgram`, followed by the properties proved about them.

Conventions of the embedding.

* The parser is a value that every method takes and returns (explicit state passing).
* The two `for !p.curTokenIs(token.SEMICOLON)` loops and the loop of `ParseProgram`
  have no bound in the source. They take a fuel argument and return `none` when it runs
  out; a call that returns `none` for every fuel is a call that never returns.
* A Go pointer that may be nil is an `Option`; a Go interface value is `none` when it is
  the nil interface and `some v` when it carries a dynamic type, also when the pointer
  inside `v` is nil.
-/

/-! ## Package token -/

/-- Modelled from the spec: package `token` is not among the embedded files. A token
kind is a Go string (`type Type string`), which is what `%s` prints in `peekError`. -/
abbrev TokenType := String

/-- Modelled from the spec: a token is its kind and its literal text. The field `Type` of
the source is called `Typ` here, `Type` being reserved. -/
structure Token where
  Typ : TokenType
  Literal : String
deriving DecidableEq, Repr

namespace token

/-- Modelled from the spec: the kind of the end-of-input token. The texts of the kinds are
not among the embedded files; the proofs only use that they are pairwise distinct, and an
example shows the texts of `IDENT` and `INT` inside a message. -/
def EOF : TokenType := "EOF"

/-- Modelled from the spec: the kind of identifiers. -/
def IDENT : TokenType := "IDENT"

/-- Modelled from the spec: the kind of integer literals. -/
def INT : TokenType := "INT"

/-- Modelled from the spec: the kind of the assignment operator. -/
def ASSIGN : TokenType := "ASSIGN"

/-- Modelled from the spec: the kind of the statement terminator. -/
def SEMICOLON : TokenType := "SEMICOLON"

/-- Modelled from the spec: the kind of the keyword `let`. -/
def LET : TokenType := "LET"

/-- Modelled from the spec: the kind of the keyword `return`. -/
def RETURN : TokenType := "RETURN"

end token

/-! ## Package lexer -/

namespace lexer

/-- Modelled from the spec: the token source, which is not among the embedded files. It
holds the finite sequence of tokens before end-of-input and the number of tokens drawn so
far. -/
structure Lexer where
  input : List Token
  position : Nat
deriving DecidableEq, Repr

/-- Modelled from the spec: "give me the next token". Past the end of the sequence the
source yields the end-of-input token, on every further call. -/
def Lexer.NextToken (l : Lexer) : Token × Lexer :=
  (l.input.getD l.position ⟨token.EOF, ""⟩, { l with position := l.position + 1 })

end lexer

/-! ## Package ast -/

namespace ast

/-- Modelled from the spec: `Identifier{ value: text }` with its originating token. -/
structure Identifier where
  Token : Token
  Value : String
deriving DecidableEq, Repr

/-- Modelled from the spec: `IntegerLiteral{ value: integer }` with its originating
token. -/
structure IntegerLiteral where
  Token : Token
  Value : Int
deriving DecidableEq, Repr

/-- Modelled from the spec: the interface `Expression`; each variant carries the pointer
of its dynamic type. -/
inductive Expression where
  | identifier (ptr : Option Identifier)
  | integerLiteral (ptr : Option IntegerLiteral)
deriving DecidableEq, Repr

/-- Modelled from the spec: `LetStatement{ name: Identifier, boundValue: Expression? }`
with its originating token. `Name` is a pointer, nil until it is assigned. -/
structure LetStatement where
  Token : Token
  Name : Option Identifier
  Value : Option Expression
deriving DecidableEq, Repr

/-- Modelled from the spec: `ReturnStatement{ value: Expression? }` with its originating
token. -/
structure ReturnStatement where
  Token : Token
  ReturnValue : Option Expression
deriving DecidableEq, Repr

/-- Modelled from the spec: `ExpressionStatement{ expression: Expression }` with its
originating token. -/
structure ExpressionStatement where
  Token : Token
  Expression : Option Expression
deriving DecidableEq, Repr

/-- Modelled from the spec: a non-nil value of the interface `Statement`: a dynamic type
together with a pointer of that type, which may itself be nil. -/
inductive Statement where
  | letStatement (ptr : Option LetStatement)
  | returnStatement (ptr : Option ReturnStatement)
  | expressionStatement (ptr : Option ExpressionStatement)
deriving DecidableEq, Repr

/-- Modelled from the spec: the root node, an ordered sequence of statements. -/
structure Program where
  Statements : List Statement
deriving DecidableEq, Repr

end ast

/-! ## Package parser -/

namespace parser

open lexer ast

/-- A value of type `prefixParseFn`. `parser.go` stores such values and never calls one,
so a function value is represented by a handle. -/
structure prefixParseFn where
  handle : Nat
deriving DecidableEq, Repr

/-- A value of type `infixParseFn`, represented like `prefixParseFn`. -/
structure infixParseFn where
  handle : Nat
deriving DecidableEq, Repr

/-- The struct `Parser`. A Go map is `none` when it is the nil map and otherwise the list
of its entries. -/
structure Parser where
  l : Lexer
  curToken : Token
  peekToken : Token
  errors : List String
  prefixParseFns : Option (List (TokenType × prefixParseFn))
  infixParseFns : Option (List (TokenType × infixParseFn))
deriving DecidableEq, Repr

namespace Parser

/-- `nextToken`: the peek token becomes the current one and a token is drawn. -/
def nextToken (p : Parser) : Parser :=
  { p with curToken := p.peekToken, peekToken := p.l.NextToken.1, l := p.l.NextToken.2 }

/-- `Errors`: the diagnostics collected so far. -/
def Errors (p : Parser) : List String :=
  p.errors

/-- `peekError`: appends the message built by `fmt.Sprintf` from the expected kind and
the kind of the peek token. -/
def peekError (p : Parser) (t : TokenType) : Parser :=
  let msg := "expected next token to be '" ++ t ++ "', got '" ++ p.peekToken.Typ ++ "' instead"
  { p with errors := p.errors ++ [msg] }

/-- `curTokenIs`. -/
def curTokenIs (p : Parser) (t : TokenType) : Bool :=
  p.curToken.Typ == t

/-- `peekTokenIs`. -/
def peekTokenIs (p : Parser) (t : TokenType) : Bool :=
  p.peekToken.Typ == t

/-- `expectPeek`: the returned boolean and the state after the call. -/
def expectPeek (p : Parser) (t : TokenType) : Bool × Parser :=
  if p.peekTokenIs t then
    (true, p.nextToken)
  else
    (false, p.peekError t)

/-- The loop `for !p.curTokenIs(token.SEMICOLON) { p.nextToken() }`, which
`parseLetStatement` and `parseReturnStatement` both contain. Every test of the loop
condition costs one unit of fuel. -/
def skipToSemicolon : Nat → Parser → Option Parser
  | 0, _ => none
  | fuel + 1, p =>
    if p.curTokenIs token.SEMICOLON then some p else skipToSemicolon fuel p.nextToken

/-- `parseLetStatement`: the returned pointer (`none` is the nil pointer) and the state
after the call; the outer `none` is fuel exhaustion in the loop. -/
def parseLetStatement (fuel : Nat) (p : Parser) : Option (Option LetStatement × Parser) :=
  let stmt : LetStatement := { Token := p.curToken, Name := none, Value := none }
  match p.expectPeek token.IDENT with
  | (false, p1) => some (none, p1)
  | (true, p1) =>
    let stmt := { stmt with Name := some { Token := p1.curToken, Value := p1.curToken.Literal } }
    match skipToSemicolon fuel p1 with
    | none => none
    | some p2 => some (some stmt, p2)

/-- `parseReturnStatement`: the returned pointer, which is never nil, and the state after
the call. -/
def parseReturnStatement (fuel : Nat) (p : Parser) :
    Option (Option ReturnStatement × Parser) :=
  let stmt : ReturnStatement := { Token := p.curToken, ReturnValue := none }
  let p1 := p.nextToken
  match skipToSemicolon fuel p1 with
  | none => none
  | some p2 => some (some stmt, p2)

/-- `parseStatement`: the returned interface value and the state after the call. In the
`LET` and `RETURN` cases the pointer returned by the callee is converted to the interface
`ast.Statement`, which gives a non-nil interface value whatever the pointer is; only the
`default` case returns the nil interface. -/
def parseStatement (fuel : Nat) (p : Parser) : Option (Option Statement × Parser) :=
  if p.curToken.Typ = token.LET then
    match parseLetStatement fuel p with
    | none => none
    | some (ptr, p1) => some (some (Statement.letStatement ptr), p1)
  else if p.curToken.Typ = token.RETURN then
    match parseReturnStatement fuel p with
    | none => none
    | some (ptr, p1) => some (some (Statement.returnStatement ptr), p1)
  else
    some (none, p)

/-- The loop of `ParseProgram`, with the statements appended so far. Every test of the
loop condition costs one unit of fuel, and what is left is the fuel of the loops inside
the statement being parsed. -/
def parseLoop : Nat → Parser → List Statement → Option (List Statement × Parser)
  | 0, _, _ => none
  | fuel + 1, p, stmts =>
    if p.curToken.Typ ≠ token.EOF then
      match parseStatement fuel p with
      | none => none
      | some (stmt, p1) =>
        let stmts1 :=
          match stmt with
          | some s => stmts ++ [s]
          | none => stmts
        parseLoop fuel p1.nextToken stmts1
    else
      some (stmts, p)

/-- `ParseProgram`: the returned program and the state after the call. -/
def ParseProgram (fuel : Nat) (p : Parser) : Option (Program × Parser) :=
  match parseLoop fuel p [] with
  | none => none
  | some (stmts, p1) => some ({ Statements := stmts }, p1)

/-- `registerPrefix`: an assignment to an entry of the map; on the nil map the Go runtime
panics, which is `none`. -/
def registerPrefix (p : Parser) (tokenType : TokenType) (fn : prefixParseFn) :
    Option Parser :=
  match p.prefixParseFns with
  | none => none
  | some m => some { p with prefixParseFns := some ((tokenType, fn) :: m.filter (fun e => e.1 ≠ tokenType)) }

/-- `registerInfix`: as `registerPrefix`, on the other map. -/
def registerInfix (p : Parser) (tokenType : TokenType) (fn : infixParseFn) :
    Option Parser :=
  match p.infixParseFns with
  | none => none
  | some m => some { p with infixParseFns := some ((tokenType, fn) :: m.filter (fun e => e.1 ≠ tokenType)) }

end Parser

/-- The struct literal `&Parser{l: l, errors: []string{}}` of `New`: the tokens are zero
values and the maps are nil. -/
def Parser.literal (l : Lexer) : Parser :=
  { l := l, curToken := ⟨"", ""⟩, peekToken := ⟨"", ""⟩, errors := [],
    prefixParseFns := none, infixParseFns := none }

/-- `New`: builds the struct literal, then draws two tokens. -/
def New (l : Lexer) : Parser :=
  let p := Parser.literal l
  let p := p.nextToken
  let p := p.nextToken
  p

/-! ## Definitions used in the statements -/

/-- The end-of-input token that the source yields once its sequence is exhausted. -/
def eofToken : Token := ⟨token.EOF, ""⟩

/-- The token that the source `l` yields at its `(i+1)`-th call of `NextToken`. -/
def yielded (l : Lexer) : Nat → Token
  | 0 => l.NextToken.1
  | i + 1 => yielded l.NextToken.2 i

/-- The source `l` after `n` calls of `NextToken`. -/
def drawn (l : Lexer) : Nat → Lexer
  | 0 => l
  | n + 1 => drawn l.NextToken.2 n

/-- The parser after `n` calls of `nextToken`. -/
def advance (p : Parser) : Nat → Parser
  | 0 => p
  | n + 1 => advance p.nextToken n

/-- The parser whose window stands at index `n` of the token sequence `toks`, with the
diagnostics `errs` and both maps nil. -/
def stateAt (toks : List Token) (n : Nat) (errs : List String) : Parser :=
  { l := ⟨toks, n + 2⟩, curToken := toks.getD n eofToken, peekToken := toks.getD (n + 1) eofToken,
    errors := errs, prefixParseFns := none, infixParseFns := none }

/-- The text of the diagnostic for an expected kind `k` and an actual kind `a`. -/
def unexpected (k a : TokenType) : String :=
  "expected next token to be '" ++ k ++ "', got '" ++ a ++ "' instead"

/-- The parser that has consumed `pre` and has `rest` ahead, the current token being the
first token of `rest`. -/
def view (pre rest : List Token) (errs : List String) : Parser :=
  stateAt (pre ++ rest) pre.length errs

/-- The token at index `i` (from 0) of the stream whose tokens before end-of-input are
`toks`: past the end it is the end-of-input token. -/
def tokenAt (toks : List Token) (i : Nat) : Token :=
  toks.getD i eofToken

/-- The message `msg` is the diagnostic of the expect check for a `let` keyword of the
stream that is followed by a token other than an identifier. -/
def LetDiagnostic (toks : List Token) (msg : String) : Prop :=
  ∃ i, i < toks.length ∧ (tokenAt toks i).Typ = token.LET ∧
    (tokenAt toks (i + 1)).Typ ≠ token.IDENT ∧
    msg = "expected next token to be '" ++ token.IDENT ++ "', got '" ++
      (tokenAt toks (i + 1)).Typ ++ "' instead"

/-- What an entry of the statement sequence retains of the stream `toks`. A let statement
keeps a `let` keyword token of the stream, and its name keeps the identifier token that
follows this keyword and has that token's literal as value; a return statement keeps a
`return` keyword token of the stream. An entry that wraps a nil pointer of type
`*ast.LetStatement` retains nothing; no other entry occurs. -/
def NodeOf (toks : List Token) : Statement → Prop
  | .letStatement (some s) =>
    ∃ i, i < toks.length ∧ s.Token = tokenAt toks i ∧ s.Token.Typ = token.LET ∧
      (tokenAt toks (i + 1)).Typ = token.IDENT ∧
      s.Name = some { Token := tokenAt toks (i + 1), Value := (tokenAt toks (i + 1)).Literal }
  | .letStatement none => True
  | .returnStatement (some s) =>
    ∃ i, i < toks.length ∧ s.Token = tokenAt toks i ∧ s.Token.Typ = token.RETURN
  | .returnStatement none => False
  | .expressionStatement _ => False

/-- Every `return` keyword of the stream, and every `let` keyword that an identifier
follows, has a terminator somewhere after it in the stream. -/
def Terminated (toks : List Token) : Prop :=
  ∀ i, i < toks.length →
    ((tokenAt toks i).Typ = token.RETURN ∨
      ((tokenAt toks i).Typ = token.LET ∧ (tokenAt toks (i + 1)).Typ = token.IDENT)) →
    ∃ j, j < toks.length ∧ i < j ∧ (tokenAt toks j).Typ = token.SEMICOLON

instance (toks : List Token) : Decidable (Terminated toks) :=
  inferInstanceAs (Decidable (∀ i, i < toks.length → _))

/-! ## Descriptions of the input -/

/-- A let statement of the input: the keyword, the identifier, the tokens up to the
terminator, and the terminator. -/
structure LetSource where
  kw : Token
  name : Token
  body : List Token
  semi : Token
deriving DecidableEq, Repr

/-- The tokens of a let statement, in order. -/
def LetSource.tokens (s : LetSource) : List Token :=
  s.kw :: s.name :: s.body ++ [s.semi]

/-- The form `LET IDENT <tokens without SEMICOLON> SEMICOLON`. -/
def LetSource.WellFormed (s : LetSource) : Prop :=
  s.kw.Typ = token.LET ∧ s.name.Typ = token.IDENT ∧
    (∀ t ∈ s.body, t.Typ ≠ token.SEMICOLON) ∧ s.semi.Typ = token.SEMICOLON

instance (s : LetSource) : Decidable s.WellFormed :=
  inferInstanceAs (Decidable (_ ∧ _ ∧ _ ∧ _))

/-- The node that a let statement is parsed to: it keeps the keyword token, and its name
keeps the identifier token and that token's literal text. -/
def LetSource.node (s : LetSource) : Statement :=
  Statement.letStatement
    (some { Token := s.kw, Name := some { Token := s.name, Value := s.name.Literal },
            Value := none })

/-- A return statement of the input: the keyword, the tokens up to the terminator, and
the terminator. -/
structure ReturnSource where
  kw : Token
  body : List Token
  semi : Token
deriving DecidableEq, Repr

/-- The tokens of a return statement, in order. -/
def ReturnSource.tokens (s : ReturnSource) : List Token :=
  s.kw :: s.body ++ [s.semi]

/-- The form `RETURN <tokens without SEMICOLON> SEMICOLON`. -/
def ReturnSource.WellFormed (s : ReturnSource) : Prop :=
  s.kw.Typ = token.RETURN ∧ (∀ t ∈ s.body, t.Typ ≠ token.SEMICOLON) ∧
    s.semi.Typ = token.SEMICOLON

instance (s : ReturnSource) : Decidable s.WellFormed :=
  inferInstanceAs (Decidable (_ ∧ _ ∧ _))

/-- The node that a return statement is parsed to: it keeps the keyword token. -/
def ReturnSource.node (s : ReturnSource) : Statement :=
  Statement.returnStatement (some { Token := s.kw, ReturnValue := none })

/-- A statement of the input, of either kind. -/
inductive StmtSource where
  | letS (s : LetSource)
  | returnS (s : ReturnSource)
deriving DecidableEq, Repr

/-- The tokens of a statement, in order. -/
def StmtSource.tokens : StmtSource → List Token
  | .letS s => s.tokens
  | .returnS s => s.tokens

/-- Well-formedness of a statement of either kind. -/
def StmtSource.WellFormed : StmtSource → Prop
  | .letS s => s.WellFormed
  | .returnS s => s.WellFormed

instance : (s : StmtSource) → Decidable s.WellFormed
  | .letS s => inferInstanceAs (Decidable s.WellFormed)
  | .returnS s => inferInstanceAs (Decidable s.WellFormed)

/-- The node that a statement is parsed to. -/
def StmtSource.node : StmtSource → Statement
  | .letS s => s.node
  | .returnS s => s.node

/-- A let statement of the input whose identifier slot is missing or invalid: the
keyword, the tokens up to the terminator, and the terminator. -/
structure MalformedLet where
  kw : Token
  body : List Token
  semi : Token
deriving DecidableEq, Repr

/-- The tokens of a malformed let statement, in order. -/
def MalformedLet.tokens (s : MalformedLet) : List Token :=
  s.kw :: s.body ++ [s.semi]

/-- The form `LET <tokens without SEMICOLON, the first not an identifier> SEMICOLON`,
where there may be no token at all between the keyword and the terminator. -/
def MalformedLet.Shape (s : MalformedLet) : Prop :=
  s.kw.Typ = token.LET ∧ (∀ t ∈ s.body, t.Typ ≠ token.SEMICOLON) ∧
    s.body.head?.map Token.Typ ≠ some token.IDENT ∧ s.semi.Typ = token.SEMICOLON

instance (s : MalformedLet) : Decidable s.Shape :=
  inferInstanceAs (Decidable (_ ∧ _ ∧ _ ∧ _))

/-- No token between the keyword and the terminator is a `let` keyword or an
end-of-input token. -/
def MalformedLet.Plain (s : MalformedLet) : Prop :=
  ∀ t ∈ s.body, t.Typ ≠ token.LET ∧ t.Typ ≠ token.EOF

instance (s : MalformedLet) : Decidable s.Plain :=
  inferInstanceAs (Decidable (∀ t ∈ s.body, _))

/-! ## Examples of inputs -/

/-- The statements of `let x = 100; let y = 10; let result = true;`. -/
def letExample : List LetSource :=
  [ { kw := ⟨token.LET, "let"⟩, name := ⟨token.IDENT, "x"⟩,
      body := [⟨token.ASSIGN, "="⟩, ⟨token.INT, "100"⟩], semi := ⟨token.SEMICOLON, ";"⟩ },
    { kw := ⟨token.LET, "let"⟩, name := ⟨token.IDENT, "y"⟩,
      body := [⟨token.ASSIGN, "="⟩, ⟨token.INT, "10"⟩], semi := ⟨token.SEMICOLON, ";"⟩ },
    { kw := ⟨token.LET, "let"⟩, name := ⟨token.IDENT, "result"⟩,
      body := [⟨token.ASSIGN, "="⟩, ⟨"TRUE", "true"⟩], semi := ⟨token.SEMICOLON, ";"⟩ } ]

/-- The statements of `return 5; return a; return 5123;`. -/
def returnExample : List ReturnSource :=
  [ { kw := ⟨token.RETURN, "return"⟩, body := [⟨token.INT, "5"⟩],
      semi := ⟨token.SEMICOLON, ";"⟩ },
    { kw := ⟨token.RETURN, "return"⟩, body := [⟨token.IDENT, "a"⟩],
      semi := ⟨token.SEMICOLON, ";"⟩ },
    { kw := ⟨token.RETURN, "return"⟩, body := [⟨token.INT, "5123"⟩],
      semi := ⟨token.SEMICOLON, ";"⟩ } ]

/-- The statements of `let 8999; let 1 = a; let = 5;`. -/
def malformedExample : List MalformedLet :=
  [ { kw := ⟨token.LET, "let"⟩, body := [⟨token.INT, "8999"⟩],
      semi := ⟨token.SEMICOLON, ";"⟩ },
    { kw := ⟨token.LET, "let"⟩,
      body := [⟨token.INT, "1"⟩, ⟨token.ASSIGN, "="⟩, ⟨token.IDENT, "a"⟩],
      semi := ⟨token.SEMICOLON, ";"⟩ },
    { kw := ⟨token.LET, "let"⟩, body := [⟨token.ASSIGN, "="⟩, ⟨token.INT, "5"⟩],
      semi := ⟨token.SEMICOLON, ";"⟩ } ]

/-- The statement `let let ;`, whose identifier slot holds a `let` keyword. -/
def letLetExample : MalformedLet :=
  { kw := ⟨token.LET, "let"⟩, body := [⟨token.LET, "let"⟩], semi := ⟨token.SEMICOLON, ";"⟩ }

/-- The parser built by `New` over the tokens of `let 8999`. -/
def peekExample : Parser :=
  New ⟨[⟨token.LET, "let"⟩, ⟨token.INT, "8999"⟩], 0⟩

/-- The tokens of `return 5; x`. -/
def returnThenIdent : List Token :=
  [⟨token.RETURN, "return"⟩, ⟨token.INT, "5"⟩, ⟨token.SEMICOLON, ";"⟩, ⟨token.IDENT, "x"⟩]

/-- The tokens of `let y = 5; x`. -/
def letThenIdent : List Token :=
  [⟨token.LET, "let"⟩, ⟨token.IDENT, "y"⟩, ⟨token.ASSIGN, "="⟩, ⟨token.INT, "5"⟩,
   ⟨token.SEMICOLON, ";"⟩, ⟨token.IDENT, "x"⟩]

/-- The parser built by `New` over the tokens of `5;`. -/
def intExample : Parser :=
  New ⟨[⟨token.INT, "5"⟩, ⟨token.SEMICOLON, ";"⟩], 0⟩

/-- The tokens of `let 5 return x; foo let y = 1;`: a malformed let statement, a return
statement inside it, a stray identifier and a well-formed let statement. -/
def terminatedExample : List Token :=
  [⟨token.LET, "let"⟩, ⟨token.INT, "5"⟩, ⟨token.RETURN, "return"⟩, ⟨token.IDENT, "x"⟩,
   ⟨token.SEMICOLON, ";"⟩, ⟨token.IDENT, "foo"⟩, ⟨token.LET, "let"⟩, ⟨token.IDENT, "y"⟩,
   ⟨token.ASSIGN, "="⟩, ⟨token.INT, "1"⟩, ⟨token.SEMICOLON, ";"⟩]

/-- The statements of `let x = return let; return let y; let z = 1;`, with keywords
inside the bodies. -/
def mixedExample : List StmtSource :=
  [ .letS { kw := ⟨token.LET, "let"⟩, name := ⟨token.IDENT, "x"⟩,
            body := [⟨token.ASSIGN, "="⟩, ⟨token.RETURN, "return"⟩, ⟨token.LET, "let"⟩],
            semi := ⟨token.SEMICOLON, ";"⟩ },
    .returnS { kw := ⟨token.RETURN, "return"⟩,
               body := [⟨token.LET, "let"⟩, ⟨token.IDENT, "y"⟩],
               semi := ⟨token.SEMICOLON, ";"⟩ },
    .letS { kw := ⟨token.LET, "let"⟩, name := ⟨token.IDENT, "z"⟩,
            body := [⟨token.ASSIGN, "="⟩, ⟨token.INT, "1"⟩],
            semi := ⟨token.SEMICOLON, ";"⟩ } ]

/-- The tokens of `let 5`. -/
def letIntExample : List Token :=
  [⟨token.LET, "let"⟩, ⟨token.INT, "5"⟩]

/-- The tokens of `let = 5;`. -/
def letAssignExample : List Token :=
  [⟨token.LET, "let"⟩, ⟨token.ASSIGN, "="⟩, ⟨token.INT, "5"⟩, ⟨token.SEMICOLON, ";"⟩]

/-- The tokens of `let 5;`. -/
def letFiveExample : List Token :=
  [⟨token.LET, "let"⟩, ⟨token.INT, "5"⟩, ⟨token.SEMICOLON, ";"⟩]

/-! ## The window and the token source -/

theorem yielded_eq_getD (l : Lexer) (i : Nat) :
    yielded l i = l.input.getD (l.position + i) eofToken := by
  induction i generalizing l with
  | zero => simp [yielded, Lexer.NextToken, eofToken]
  | succ i ih =>
    rw [yielded, ih]
    simp only [Lexer.NextToken]
    congr 1
    omega

theorem drawn_eq (l : Lexer) (n : Nat) : drawn l n = ⟨l.input, l.position + n⟩ := by
  induction n generalizing l with
  | zero => simp [drawn]
  | succ n ih =>
    rw [drawn, ih]
    simp only [Lexer.NextToken, Lexer.mk.injEq, true_and]
    omega

theorem advance_succ (p : Parser) (n : Nat) : advance p (n + 1) = (advance p n).nextToken := by
  induction n generalizing p with
  | zero => rfl
  | succ n ih => rw [advance, ih p.nextToken]; rfl

theorem advance_errors (p : Parser) (n : Nat) : (advance p n).errors = p.errors := by
  induction n generalizing p with
  | zero => rfl
  | succ n ih => rw [advance, ih]; rfl

theorem advance_l (p : Parser) (n : Nat) : (advance p n).l = drawn p.l n := by
  induction n generalizing p with
  | zero => rfl
  | succ n ih => rw [advance, ih, drawn]; rfl

theorem advance_peekToken (p : Parser) (n : Nat) :
    (advance p (n + 1)).peekToken = yielded p.l n := by
  induction n generalizing p with
  | zero => rfl
  | succ n ih => rw [advance, ih, yielded]; rfl

theorem advance_curToken (p : Parser) (n : Nat) :
    (advance p (n + 2)).curToken = yielded p.l n := by
  rw [advance_succ, ← advance_peekToken]
  rfl

theorem New_eq_advance (l : Lexer) : New l = advance (Parser.literal l) 2 := rfl

theorem advance_add (p : Parser) (m n : Nat) : advance (advance p m) n = advance p (m + n) := by
  induction m generalizing p with
  | zero => simp [advance]
  | succ m ih => rw [advance, ih, Nat.add_right_comm, advance]

theorem New_eq_stateAt (toks : List Token) : New ⟨toks, 0⟩ = stateAt toks 0 [] := by
  simp [New, Parser.literal, stateAt, Parser.nextToken, Lexer.NextToken, eofToken]

theorem nextToken_stateAt (toks : List Token) (n : Nat) (errs : List String) :
    (stateAt toks n errs).nextToken = stateAt toks (n + 1) errs := by
  simp [stateAt, Parser.nextToken, Lexer.NextToken, eofToken]

theorem getD_append_length (pre rest : List Token) (i : Nat) :
    (pre ++ rest).getD (pre.length + i) eofToken = rest.getD i eofToken := by
  simp [List.getD_eq_getElem?_getD, List.getElem?_append_right]

theorem view_curToken (pre rest : List Token) (errs : List String) :
    (view pre rest errs).curToken = rest.getD 0 eofToken := by
  have h := getD_append_length pre rest 0
  simpa [view, stateAt] using h

theorem view_peekToken (pre rest : List Token) (errs : List String) :
    (view pre rest errs).peekToken = rest.getD 1 eofToken := by
  have h := getD_append_length pre rest 1
  simpa [view, stateAt] using h

theorem view_errors (pre rest : List Token) (errs : List String) :
    (view pre rest errs).errors = errs := rfl

theorem nextToken_view (pre : List Token) (t : Token) (rest : List Token)
    (errs : List String) :
    (view pre (t :: rest) errs).nextToken = view (pre ++ [t]) rest errs := by
  simp [view, nextToken_stateAt]

theorem peekError_view (pre rest : List Token) (errs : List String) (k : TokenType) :
    (view pre rest errs).peekError k =
      view pre rest (errs ++ [unexpected k (rest.getD 1 eofToken).Typ]) := by
  rw [← view_peekToken pre rest errs]
  rfl

theorem New_eq_view (toks : List Token) : New ⟨toks, 0⟩ = view [] toks [] := by
  simp [New_eq_stateAt, view]

/-! ## Distinct kinds -/

theorem LET_ne_EOF : token.LET ≠ token.EOF := by decide

theorem RETURN_ne_EOF : token.RETURN ≠ token.EOF := by decide

theorem RETURN_ne_LET : token.RETURN ≠ token.LET := by decide

theorem SEMICOLON_ne_EOF : token.SEMICOLON ≠ token.EOF := by decide

theorem SEMICOLON_ne_LET : token.SEMICOLON ≠ token.LET := by decide

theorem SEMICOLON_ne_RETURN : token.SEMICOLON ≠ token.RETURN := by decide

theorem EOF_ne_SEMICOLON : token.EOF ≠ token.SEMICOLON := by decide

/-! ## The skipping loop -/

/-- From a window whose tokens ahead are `body`, free of terminators, then a terminator,
the loop stops on that terminator once the fuel exceeds the length of `body`. -/
theorem skipToSemicolon_view (body : List Token) (semi : Token) (post pre : List Token)
    (errs : List String) (fuel : Nat)
    (hb : ∀ t ∈ body, t.Typ ≠ token.SEMICOLON) (hs : semi.Typ = token.SEMICOLON)
    (hf : body.length < fuel) :
    Parser.skipToSemicolon fuel (view pre (body ++ semi :: post) errs) =
      some (view (pre ++ body) (semi :: post) errs) := by
  induction body generalizing pre fuel with
  | nil =>
    obtain ⟨f, rfl⟩ : ∃ f, fuel = f + 1 := ⟨fuel - 1, by simp at hf; omega⟩
    simp [Parser.skipToSemicolon, Parser.curTokenIs, view_curToken, hs]
  | cons t body ih =>
    obtain ⟨f, rfl⟩ : ∃ f, fuel = f + 1 := ⟨fuel - 1, by simp at hf; omega⟩
    have ht : t.Typ ≠ token.SEMICOLON := hb t (by simp)
    have hb1 : ∀ u ∈ body, u.Typ ≠ token.SEMICOLON := fun u hu => hb u (by simp [hu])
    have hf1 : body.length < f := by simp at hf; omega
    have h := ih (pre ++ [t]) f hb1 hf1
    simp only [List.append_assoc, List.singleton_append] at h
    simp [Parser.skipToSemicolon, Parser.curTokenIs, view_curToken, ht, nextToken_view, h]

/-- Past a point after which no token is a terminator, the loop never stops. -/
theorem skipToSemicolon_stateAt_none (toks : List Token) (errs : List String) (fuel n : Nat)
    (h : ∀ i, n ≤ i → (toks.getD i eofToken).Typ ≠ token.SEMICOLON) :
    Parser.skipToSemicolon fuel (stateAt toks n errs) = none := by
  induction fuel generalizing n with
  | zero => rfl
  | succ f ih =>
    have h0 : (toks.getD n eofToken).Typ ≠ token.SEMICOLON := h n (Nat.le_refl n)
    have h1 := ih (n + 1) (fun i hi => h i (by omega))
    have h2 : (stateAt toks n errs).curToken.Typ ≠ token.SEMICOLON := h0
    simp [Parser.skipToSemicolon, Parser.curTokenIs, nextToken_stateAt, h1, h2]

/-! ## More fuel does not change a result -/

theorem skipToSemicolon_mono (n m : Nat) (p q : Parser) (hnm : n ≤ m)
    (h : Parser.skipToSemicolon n p = some q) : Parser.skipToSemicolon m p = some q := by
  induction n generalizing p m with
  | zero => simp [Parser.skipToSemicolon] at h
  | succ n ih =>
    obtain ⟨k, rfl⟩ : ∃ k, m = k + 1 := ⟨m - 1, by omega⟩
    rw [Parser.skipToSemicolon] at h ⊢
    by_cases hc : p.curTokenIs token.SEMICOLON = true
    · simpa [hc] using h
    · simp only [hc] at h ⊢
      exact ih k p.nextToken (by omega) h

theorem parseLetStatement_mono (n m : Nat) (p : Parser) (r : Option LetStatement × Parser)
    (hnm : n ≤ m) (h : Parser.parseLetStatement n p = some r) :
    Parser.parseLetStatement m p = some r := by
  unfold Parser.parseLetStatement at h ⊢
  rcases hx : p.expectPeek token.IDENT with ⟨b, p1⟩
  cases b with
  | false => simpa [hx] using h
  | true =>
    simp only [hx] at h ⊢
    cases hs : Parser.skipToSemicolon n p1 with
    | none => simp [hs] at h
    | some p2 =>
      rw [skipToSemicolon_mono n m p1 p2 hnm hs]
      simpa [hs] using h

theorem parseReturnStatement_mono (n m : Nat) (p : Parser)
    (r : Option ReturnStatement × Parser) (hnm : n ≤ m)
    (h : Parser.parseReturnStatement n p = some r) :
    Parser.parseReturnStatement m p = some r := by
  unfold Parser.parseReturnStatement at h ⊢
  cases hs : Parser.skipToSemicolon n p.nextToken with
  | none => simp [hs] at h
  | some p2 =>
    simp only [skipToSemicolon_mono n m p.nextToken p2 hnm hs]
    simpa [hs] using h

theorem parseStatement_mono (n m : Nat) (p : Parser) (r : Option Statement × Parser)
    (hnm : n ≤ m) (h : Parser.parseStatement n p = some r) :
    Parser.parseStatement m p = some r := by
  unfold Parser.parseStatement at h ⊢
  by_cases h1 : p.curToken.Typ = token.LET
  · rw [if_pos h1] at h ⊢
    cases hl : Parser.parseLetStatement n p with
    | none => simp [hl] at h
    | some x =>
      rw [parseLetStatement_mono n m p x hnm hl]
      simpa [hl] using h
  · by_cases h2 : p.curToken.Typ = token.RETURN
    · rw [if_neg h1, if_pos h2] at h ⊢
      cases hl : Parser.parseReturnStatement n p with
      | none => simp [hl] at h
      | some x =>
        rw [parseReturnStatement_mono n m p x hnm hl]
        simpa [hl] using h
    · rw [if_neg h1, if_neg h2] at h ⊢
      exact h

theorem parseLoop_mono (n m : Nat) (p : Parser) (acc : List Statement)
    (r : List Statement × Parser) (hnm : n ≤ m)
    (h : Parser.parseLoop n p acc = some r) : Parser.parseLoop m p acc = some r := by
  induction n generalizing p acc m with
  | zero => simp [Parser.parseLoop] at h
  | succ n ih =>
    obtain ⟨k, rfl⟩ : ∃ k, m = k + 1 := ⟨m - 1, by omega⟩
    rw [Parser.parseLoop] at h ⊢
    by_cases hc : p.curToken.Typ = token.EOF
    · simpa [hc] using h
    · simp only [ne_eq, hc, not_false_eq_true, if_true] at h ⊢
      cases hs : Parser.parseStatement n p with
      | none => simp [hs] at h
      | some x =>
        rw [parseStatement_mono n k p x (by omega) hs]
        simp only [hs] at h
        exact ih k _ _ (by omega) h

/-- A result of `ParseProgram` is its result with any larger fuel. -/
theorem ParseProgram_mono (n m : Nat) (p : Parser) (r : Program × Parser) (hnm : n ≤ m)
    (h : Parser.ParseProgram n p = some r) : Parser.ParseProgram m p = some r := by
  unfold Parser.ParseProgram at h ⊢
  cases hl : Parser.parseLoop n p [] with
  | none => simp [hl] at h
  | some x =>
    rw [parseLoop_mono n m p [] x hnm hl]
    simpa [hl] using h

/-! ## One iteration of the loop of `ParseProgram` -/

/-- On end-of-input the loop returns what it has. -/
theorem parseLoop_end (pre : List Token) (errs : List String) (acc : List Statement)
    (fuel : Nat) :
    Parser.parseLoop (fuel + 1) (view pre [] errs) acc = some (acc, view pre [] errs) := by
  have hcur : (view pre [] errs).curToken.Typ = token.EOF := by
    rw [view_curToken]; rfl
  simp [Parser.parseLoop, hcur]

/-- A well-formed let statement is consumed in one iteration, which appends its node. -/
theorem parseLoop_let (kw name : Token) (body : List Token) (semi : Token)
    (pre post : List Token) (errs : List String) (acc : List Statement) (fuel : Nat)
    (hk : kw.Typ = token.LET) (hn : name.Typ = token.IDENT)
    (hb : ∀ t ∈ body, t.Typ ≠ token.SEMICOLON) (hs : semi.Typ = token.SEMICOLON)
    (hf : body.length + 1 < fuel) :
    Parser.parseLoop (fuel + 1) (view pre (kw :: name :: body ++ semi :: post) errs) acc =
      Parser.parseLoop fuel (view (pre ++ (kw :: name :: body ++ [semi])) post errs)
        (acc ++ [Statement.letStatement
          (some { Token := kw, Name := some { Token := name, Value := name.Literal },
                  Value := none })]) := by
  have hcur : (view pre (kw :: name :: body ++ semi :: post) errs).curToken = kw := by
    simp [view_curToken]
  have hpeek : (view pre (kw :: name :: body ++ semi :: post) errs).peekToken = name := by
    simp [view_peekToken]
  have hnext : (view pre (kw :: name :: body ++ semi :: post) errs).nextToken =
      view (pre ++ [kw]) ((name :: body) ++ semi :: post) errs := nextToken_view _ _ _ _
  have hb1 : ∀ t ∈ name :: body, t.Typ ≠ token.SEMICOLON := by
    intro t ht
    rcases List.mem_cons.mp ht with rfl | ht
    · rw [hn]; decide
    · exact hb t ht
  have hskip := skipToSemicolon_view (name :: body) semi post (pre ++ [kw]) errs fuel hb1 hs
    (by simpa using hf)
  have hc1 : (view (pre ++ [kw]) ((name :: body) ++ semi :: post) errs).curToken = name := by
    simp [view_curToken]
  have hlast : (view (pre ++ [kw] ++ (name :: body)) (semi :: post) errs).nextToken =
      view (pre ++ (kw :: name :: body ++ [semi])) post errs := by
    rw [nextToken_view]; simp
  simp only [List.append_assoc, List.cons_append, List.nil_append, List.singleton_append]
    at hcur hpeek hnext hskip hc1 hlast ⊢
  rw [Parser.parseLoop]
  simp [hcur, hk, Parser.parseStatement, Parser.parseLetStatement, Parser.expectPeek,
    Parser.peekTokenIs, hpeek, hn, hnext, hskip, hc1, hlast, LET_ne_EOF]

/-- A well-formed return statement is consumed in one iteration, which appends its node. -/
theorem parseLoop_return (kw : Token) (body : List Token) (semi : Token)
    (pre post : List Token) (errs : List String) (acc : List Statement) (fuel : Nat)
    (hk : kw.Typ = token.RETURN)
    (hb : ∀ t ∈ body, t.Typ ≠ token.SEMICOLON) (hs : semi.Typ = token.SEMICOLON)
    (hf : body.length < fuel) :
    Parser.parseLoop (fuel + 1) (view pre (kw :: body ++ semi :: post) errs) acc =
      Parser.parseLoop fuel (view (pre ++ (kw :: body ++ [semi])) post errs)
        (acc ++ [Statement.returnStatement (some { Token := kw, ReturnValue := none })]) := by
  have hcur : (view pre (kw :: body ++ semi :: post) errs).curToken = kw := by
    simp [view_curToken]
  have hnext : (view pre (kw :: body ++ semi :: post) errs).nextToken =
      view (pre ++ [kw]) (body ++ semi :: post) errs := nextToken_view _ _ _ _
  have hskip := skipToSemicolon_view body semi post (pre ++ [kw]) errs fuel hb hs hf
  have hlast : (view (pre ++ [kw] ++ body) (semi :: post) errs).nextToken =
      view (pre ++ (kw :: body ++ [semi])) post errs := by
    rw [nextToken_view]; simp
  simp only [List.append_assoc, List.cons_append, List.nil_append, List.singleton_append]
    at hcur hnext hskip hlast ⊢
  rw [Parser.parseLoop]
  simp [hcur, hk, Parser.parseStatement, Parser.parseReturnStatement, hnext, hskip, hlast,
    RETURN_ne_EOF, RETURN_ne_LET]

/-- A token that starts no statement and is not end-of-input is passed over in one
iteration, which appends nothing. -/
theorem parseLoop_other (t : Token) (pre rest : List Token) (errs : List String)
    (acc : List Statement) (fuel : Nat)
    (h1 : t.Typ ≠ token.LET) (h2 : t.Typ ≠ token.RETURN) (h3 : t.Typ ≠ token.EOF) :
    Parser.parseLoop (fuel + 1) (view pre (t :: rest) errs) acc =
      Parser.parseLoop fuel (view (pre ++ [t]) rest errs) acc := by
  have hcur : (view pre (t :: rest) errs).curToken = t := by simp [view_curToken]
  rw [Parser.parseLoop]
  simp [hcur, h1, h2, h3, Parser.parseStatement, nextToken_view]

/-- A `let` keyword that no identifier follows costs one iteration, which records one
diagnostic and appends the interface value that wraps the nil pointer. -/
theorem parseLoop_let_malformed (kw : Token) (pre rest : List Token) (errs : List String)
    (acc : List Statement) (fuel : Nat)
    (hk : kw.Typ = token.LET) (hn : (rest.getD 0 eofToken).Typ ≠ token.IDENT) :
    Parser.parseLoop (fuel + 1) (view pre (kw :: rest) errs) acc =
      Parser.parseLoop fuel
        (view (pre ++ [kw]) rest (errs ++ [unexpected token.IDENT (rest.getD 0 eofToken).Typ]))
        (acc ++ [Statement.letStatement none]) := by
  have hcur : (view pre (kw :: rest) errs).curToken = kw := by simp [view_curToken]
  have hpeek : (view pre (kw :: rest) errs).peekToken = rest.getD 0 eofToken := by
    rw [view_peekToken]; cases rest <;> rfl
  have hmsg : ((kw :: rest).getD 1 eofToken) = rest.getD 0 eofToken := by
    cases rest <;> rfl
  have hn1 : ¬ (rest[0]?.getD eofToken).Typ = token.IDENT := by simpa using hn
  rw [Parser.parseLoop]
  simp only [hcur, hk, Parser.parseStatement, Parser.parseLetStatement, Parser.expectPeek,
    Parser.peekTokenIs, hpeek, peekError_view, hmsg, nextToken_view]
  simp [LET_ne_EOF, hn1, nextToken_view]

/-! ## Well-formed statements -/

/-- The loop of `ParseProgram` over a sequence of well-formed statements appends one node
per statement, in order, records nothing and stops on end-of-input, as soon as the fuel
exceeds the number of tokens ahead. -/
theorem parseLoop_sources (ss : List StmtSource) (h : ∀ s ∈ ss, s.WellFormed)
    (pre : List Token) (errs : List String) (acc : List Statement) (fuel : Nat)
    (hf : (ss.flatMap StmtSource.tokens).length < fuel) :
    Parser.parseLoop fuel (view pre (ss.flatMap StmtSource.tokens) errs) acc =
      some (acc ++ ss.map StmtSource.node,
        view (pre ++ ss.flatMap StmtSource.tokens) [] errs) := by
  induction ss generalizing pre acc fuel with
  | nil =>
    obtain ⟨f, rfl⟩ : ∃ f, fuel = f + 1 := ⟨fuel - 1, by simp at hf; omega⟩
    simpa using parseLoop_end pre errs acc f
  | cons s ss ih =>
    obtain ⟨f, rfl⟩ : ∃ f, fuel = f + 1 := ⟨fuel - 1, by omega⟩
    have hs : s.WellFormed := h s (by simp)
    have hss : ∀ u ∈ ss, u.WellFormed := fun u hu => h u (by simp [hu])
    cases s with
    | letS s =>
      obtain ⟨hk, hn, hb, hsemi⟩ := hs
      have hlen : (ss.flatMap StmtSource.tokens).length < f ∧ s.body.length + 1 < f := by
        simp only [List.flatMap_cons, StmtSource.tokens, LetSource.tokens, List.length_append,
          List.length_cons, List.length_nil] at hf
        omega
      have hstep := parseLoop_let s.kw s.name s.body s.semi pre (ss.flatMap StmtSource.tokens)
        errs acc f hk hn hb hsemi hlen.2
      have hrec := ih hss (pre ++ (s.kw :: s.name :: s.body ++ [s.semi])) (acc ++ [s.node])
        f hlen.1
      simp only [List.flatMap_cons, StmtSource.tokens, LetSource.tokens, List.map_cons,
        StmtSource.node, LetSource.node, List.append_assoc, List.cons_append,
        List.nil_append, List.singleton_append] at hstep hrec ⊢
      rw [hstep, hrec]
    | returnS s =>
      obtain ⟨hk, hb, hsemi⟩ := hs
      have hlen : (ss.flatMap StmtSource.tokens).length < f ∧ s.body.length < f := by
        simp only [List.flatMap_cons, StmtSource.tokens, ReturnSource.tokens,
          List.length_append, List.length_cons, List.length_nil] at hf
        omega
      have hstep := parseLoop_return s.kw s.body s.semi pre (ss.flatMap StmtSource.tokens)
        errs acc f hk hb hsemi hlen.2
      have hrec := ih hss (pre ++ (s.kw :: s.body ++ [s.semi])) (acc ++ [s.node]) f hlen.1
      simp only [List.flatMap_cons, StmtSource.tokens, ReturnSource.tokens, List.map_cons,
        StmtSource.node, ReturnSource.node, List.append_assoc, List.cons_append,
        List.nil_append, List.singleton_append] at hstep hrec ⊢
      rw [hstep, hrec]

/-- `ParseProgram` on the parser built by `New` over a sequence of well-formed
statements. -/
theorem ParseProgram_sources (ss : List StmtSource) (h : ∀ s ∈ ss, s.WellFormed)
    (fuel : Nat) (hf : (ss.flatMap StmtSource.tokens).length < fuel) :
    Parser.ParseProgram fuel (New ⟨ss.flatMap StmtSource.tokens, 0⟩) =
      some ({ Statements := ss.map StmtSource.node },
        view (ss.flatMap StmtSource.tokens) [] []) := by
  have h1 := parseLoop_sources ss h [] [] [] fuel hf
  simp only [List.nil_append] at h1
  simp [Parser.ParseProgram, New_eq_view, h1]

theorem flatMap_letS (ss : List LetSource) :
    (ss.map StmtSource.letS).flatMap StmtSource.tokens = ss.flatMap LetSource.tokens := by
  induction ss with
  | nil => rfl
  | cons s ss ih => simp [List.flatMap_cons, StmtSource.tokens, ih]

theorem flatMap_returnS (ss : List ReturnSource) :
    (ss.map StmtSource.returnS).flatMap StmtSource.tokens =
      ss.flatMap ReturnSource.tokens := by
  induction ss with
  | nil => rfl
  | cons s ss ih => simp [List.flatMap_cons, StmtSource.tokens, ih]

/-! ## Malformed let statements -/

/-- The tokens from an invalid identifier slot to the terminator are passed over,
whatever they are, in at most one iteration per token; a `return` among them starts a
return statement that ends at the same terminator. No diagnostic is recorded. -/
theorem parseLoop_malformed_body (body : List Token) (semi : Token) (pre post : List Token)
    (errs : List String) (acc : List Statement) (fuel : Nat)
    (hb : ∀ t ∈ body, t.Typ ≠ token.SEMICOLON ∧ t.Typ ≠ token.LET ∧ t.Typ ≠ token.EOF)
    (hs : semi.Typ = token.SEMICOLON) (hf : body.length < fuel) :
    ∃ acc1 fuel1, fuel ≤ fuel1 + body.length + 1 ∧
      Parser.parseLoop fuel (view pre (body ++ semi :: post) errs) acc =
        Parser.parseLoop fuel1 (view (pre ++ body ++ [semi]) post errs) acc1 := by
  induction body generalizing pre acc fuel with
  | nil =>
    obtain ⟨f, rfl⟩ : ∃ f, fuel = f + 1 := ⟨fuel - 1, by simp at hf; omega⟩
    refine ⟨acc, f, by simp, ?_⟩
    have h := parseLoop_other semi pre post errs acc f (by rw [hs]; decide)
      (by rw [hs]; decide) (by rw [hs]; decide)
    simpa using h
  | cons t body ih =>
    obtain ⟨f, rfl⟩ : ∃ f, fuel = f + 1 := ⟨fuel - 1, by omega⟩
    have hf1 : body.length < f := by simp at hf; omega
    have ht := hb t (by simp)
    have hb1 : ∀ u ∈ body,
        u.Typ ≠ token.SEMICOLON ∧ u.Typ ≠ token.LET ∧ u.Typ ≠ token.EOF :=
      fun u hu => hb u (by simp [hu])
    by_cases hr : t.Typ = token.RETURN
    · refine ⟨acc ++ [Statement.returnStatement (some { Token := t, ReturnValue := none })],
        f, by simp only [List.length_cons]; omega, ?_⟩
      have h := parseLoop_return t body semi pre post errs acc f hr
        (fun u hu => (hb1 u hu).1) hs hf1
      simpa using h
    · obtain ⟨acc1, fuel1, hle, heq⟩ := ih (pre ++ [t]) acc f hb1 hf1
      refine ⟨acc1, fuel1, by simp only [List.length_cons]; omega, ?_⟩
      have h := parseLoop_other t pre (body ++ semi :: post) errs acc f ht.2.1 hr ht.2.2
      simp only [List.append_assoc, List.cons_append, List.nil_append,
        List.singleton_append] at h heq ⊢
      rw [h, heq]

/-- The loop of `ParseProgram` over a sequence of malformed let statements whose bodies
hold no `let` keyword and no end-of-input token stops on end-of-input with one more
diagnostic per statement. -/
theorem parseLoop_malformed (ss : List MalformedLet) (h : ∀ s ∈ ss, s.Shape ∧ s.Plain)
    (pre : List Token) (errs : List String) (acc : List Statement) (fuel : Nat)
    (hf : (ss.flatMap MalformedLet.tokens).length < fuel) :
    ∃ acc1 msgs, msgs.length = ss.length ∧
      Parser.parseLoop fuel (view pre (ss.flatMap MalformedLet.tokens) errs) acc =
        some (acc1, view (pre ++ ss.flatMap MalformedLet.tokens) [] (errs ++ msgs)) := by
  induction ss generalizing pre errs acc fuel with
  | nil =>
    obtain ⟨f, rfl⟩ : ∃ f, fuel = f + 1 := ⟨fuel - 1, by simp at hf; omega⟩
    exact ⟨acc, [], rfl, by simpa using parseLoop_end pre errs acc f⟩
  | cons s ss ih =>
    obtain ⟨f, rfl⟩ : ∃ f, fuel = f + 1 := ⟨fuel - 1, by omega⟩
    obtain ⟨⟨hk, hb, hhead, hsemi⟩, hplain⟩ := h s (by simp)
    have hss : ∀ u ∈ ss, u.Shape ∧ u.Plain := fun u hu => h u (by simp [hu])
    have hlen : s.body.length + (ss.flatMap MalformedLet.tokens).length + 1 < f := by
      simp only [List.flatMap_cons, MalformedLet.tokens, List.length_append,
        List.length_cons, List.length_nil] at hf
      omega
    have hpeek : ((s.body ++ s.semi :: ss.flatMap MalformedLet.tokens).getD 0 eofToken).Typ ≠
        token.IDENT := by
      cases hbody : s.body with
      | nil => simp [hsemi]; decide
      | cons t body => simpa [hbody] using hhead
    have hstep := parseLoop_let_malformed s.kw pre
      (s.body ++ s.semi :: ss.flatMap MalformedLet.tokens) errs acc f hk hpeek
    obtain ⟨acc1, fuel1, hle, hbodystep⟩ := parseLoop_malformed_body s.body s.semi
      (pre ++ [s.kw]) (ss.flatMap MalformedLet.tokens)
      (errs ++ [unexpected token.IDENT
        ((s.body ++ s.semi :: ss.flatMap MalformedLet.tokens).getD 0 eofToken).Typ])
      (acc ++ [Statement.letStatement none]) f
      (fun t ht => ⟨hb t ht, hplain t ht⟩) hsemi (by omega)
    obtain ⟨acc2, msgs, hmsgs, hrec⟩ := ih hss (pre ++ [s.kw] ++ s.body ++ [s.semi])
      (errs ++ [unexpected token.IDENT
        ((s.body ++ s.semi :: ss.flatMap MalformedLet.tokens).getD 0 eofToken).Typ])
      acc1 fuel1 (by omega)
    refine ⟨acc2, unexpected token.IDENT
      ((s.body ++ s.semi :: ss.flatMap MalformedLet.tokens).getD 0 eofToken).Typ :: msgs,
      by simp [hmsgs], ?_⟩
    simp only [List.flatMap_cons, MalformedLet.tokens, List.append_assoc, List.cons_append,
      List.nil_append, List.singleton_append] at hstep hbodystep hrec ⊢
    rw [hstep, hbodystep, hrec]

/-! ## The operations on an arbitrary state -/

theorem advance_nextToken (p : Parser) (k : Nat) :
    advance p.nextToken k = advance p (k + 1) := rfl

/-- When the skipping loop stops, it has called `nextToken` some number of times, it
stands on a terminator, and none of the current tokens before was a terminator. -/
theorem skipToSemicolon_advance (fuel : Nat) (p q : Parser)
    (h : Parser.skipToSemicolon fuel p = some q) :
    ∃ k, q = advance p k ∧ q.curToken.Typ = token.SEMICOLON ∧
      ∀ j, j < k → (advance p j).curToken.Typ ≠ token.SEMICOLON := by
  induction fuel generalizing p with
  | zero => simp [Parser.skipToSemicolon] at h
  | succ f ih =>
    rw [Parser.skipToSemicolon] at h
    by_cases hc : p.curTokenIs token.SEMICOLON = true
    · rw [if_pos hc] at h
      have hq : q = p := (Option.some.inj h).symm
      subst hq
      refine ⟨0, rfl, ?_, ?_⟩
      · simpa [Parser.curTokenIs] using hc
      · intro j hj; omega
    · rw [if_neg hc] at h
      obtain ⟨k, hk, hsemi, hbefore⟩ := ih p.nextToken h
      refine ⟨k + 1, hk, hsemi, ?_⟩
      intro j hj
      cases j with
      | zero => simpa [Parser.curTokenIs, advance] using hc
      | succ j => exact hbefore j (by omega)

theorem skipToSemicolon_errors (fuel : Nat) (p q : Parser)
    (h : Parser.skipToSemicolon fuel p = some q) : q.errors = p.errors := by
  obtain ⟨k, hk, _, _⟩ := skipToSemicolon_advance fuel p q h
  rw [hk, advance_errors]

theorem expectPeek_errors (p : Parser) (k : TokenType) :
    ∃ added, (p.expectPeek k).2.errors = p.errors ++ added := by
  by_cases h : p.peekTokenIs k = true
  · exact ⟨[], by simp [Parser.expectPeek, h, Parser.nextToken]⟩
  · exact ⟨_, by simp [Parser.expectPeek, h, Parser.peekError]; rfl⟩

theorem expectPeek_of_eq (p : Parser) (k : TokenType) (h : p.peekToken.Typ = k) :
    p.expectPeek k = (true, p.nextToken) := by
  simp [Parser.expectPeek, Parser.peekTokenIs, h]

theorem expectPeek_of_ne (p : Parser) (k : TokenType) (h : p.peekToken.Typ ≠ k) :
    p.expectPeek k = (false, p.peekError k) := by
  simp [Parser.expectPeek, Parser.peekTokenIs, h]

/-- `parseLetStatement` when an identifier follows: the node is built and the skipping
loop runs from the identifier. -/
theorem parseLetStatement_of_ident (fuel : Nat) (p : Parser)
    (h : p.peekToken.Typ = token.IDENT) :
    Parser.parseLetStatement fuel p =
      (Parser.skipToSemicolon fuel p.nextToken).map (fun q =>
        (some { Token := p.curToken,
                Name := some { Token := p.peekToken, Value := p.peekToken.Literal },
                Value := none }, q)) := by
  unfold Parser.parseLetStatement
  rw [expectPeek_of_eq p token.IDENT h]
  have hcur : p.nextToken.curToken = p.peekToken := rfl
  cases hs : Parser.skipToSemicolon fuel p.nextToken <;> simp [hs, hcur]

/-- `parseLetStatement` when no identifier follows: a nil pointer and one diagnostic. -/
theorem parseLetStatement_of_not_ident (fuel : Nat) (p : Parser)
    (h : p.peekToken.Typ ≠ token.IDENT) :
    Parser.parseLetStatement fuel p = some (none, p.peekError token.IDENT) := by
  unfold Parser.parseLetStatement
  rw [expectPeek_of_ne p token.IDENT h]

/-- `parseReturnStatement`: the node is built and the skipping loop runs from the token
after the keyword. -/
theorem parseReturnStatement_eq (fuel : Nat) (p : Parser) :
    Parser.parseReturnStatement fuel p =
      (Parser.skipToSemicolon fuel p.nextToken).map (fun q =>
        (some { Token := p.curToken, ReturnValue := none }, q)) := by
  unfold Parser.parseReturnStatement
  cases hs : Parser.skipToSemicolon fuel p.nextToken <;> simp [hs]

theorem parseLetStatement_errors (fuel : Nat) (p : Parser)
    (r : Option LetStatement × Parser) (h : Parser.parseLetStatement fuel p = some r) :
    ∃ added, r.2.errors = p.errors ++ added := by
  by_cases hp : p.peekToken.Typ = token.IDENT
  · rw [parseLetStatement_of_ident fuel p hp] at h
    cases hs : Parser.skipToSemicolon fuel p.nextToken with
    | none => simp [hs] at h
    | some q =>
      simp only [hs, Option.map_some', Option.some.injEq] at h
      subst h
      exact ⟨[], by simp [skipToSemicolon_errors fuel p.nextToken q hs, Parser.nextToken]⟩
  · rw [parseLetStatement_of_not_ident fuel p hp] at h
    simp only [Option.some.injEq] at h
    subst h
    exact ⟨_, rfl⟩

theorem parseReturnStatement_errors (fuel : Nat) (p : Parser)
    (r : Option ReturnStatement × Parser) (h : Parser.parseReturnStatement fuel p = some r) :
    r.2.errors = p.errors := by
  rw [parseReturnStatement_eq] at h
  cases hs : Parser.skipToSemicolon fuel p.nextToken with
  | none => simp [hs] at h
  | some q =>
    simp only [hs, Option.map_some', Option.some.injEq] at h
    subst h
    simp [skipToSemicolon_errors fuel p.nextToken q hs, Parser.nextToken]

theorem parseStatement_errors (fuel : Nat) (p : Parser) (r : Option Statement × Parser)
    (h : Parser.parseStatement fuel p = some r) :
    ∃ added, r.2.errors = p.errors ++ added := by
  unfold Parser.parseStatement at h
  by_cases h1 : p.curToken.Typ = token.LET
  · rw [if_pos h1] at h
    cases hl : Parser.parseLetStatement fuel p with
    | none => simp [hl] at h
    | some x =>
      simp only [hl, Option.some.injEq] at h
      subst h
      exact parseLetStatement_errors fuel p x hl
  · by_cases h2 : p.curToken.Typ = token.RETURN
    · rw [if_neg h1, if_pos h2] at h
      cases hl : Parser.parseReturnStatement fuel p with
      | none => simp [hl] at h
      | some x =>
        simp only [hl, Option.some.injEq] at h
        subst h
        exact ⟨[], by simp [parseReturnStatement_errors fuel p x hl]⟩
    · rw [if_neg h1, if_neg h2] at h
      simp only [Option.some.injEq] at h
      subst h
      exact ⟨[], by simp⟩

theorem parseLoop_errors (fuel : Nat) (p : Parser) (acc : List Statement)
    (r : List Statement × Parser) (h : Parser.parseLoop fuel p acc = some r) :
    ∃ added, r.2.errors = p.errors ++ added := by
  induction fuel generalizing p acc with
  | zero => simp [Parser.parseLoop] at h
  | succ f ih =>
    rw [Parser.parseLoop] at h
    by_cases hc : p.curToken.Typ = token.EOF
    · simp only [ne_eq, hc, not_true_eq_false, if_false, Option.some.injEq] at h
      subst h
      exact ⟨[], by simp⟩
    · simp only [ne_eq, hc, not_false_eq_true, if_true] at h
      cases hs : Parser.parseStatement f p with
      | none => simp [hs] at h
      | some x =>
        simp only [hs] at h
        obtain ⟨a1, h1⟩ := parseStatement_errors f p x hs
        obtain ⟨a2, h2⟩ := ih _ _ h
        refine ⟨a1 ++ a2, ?_⟩
        rw [h2]
        simp [Parser.nextToken, h1]

theorem ParseProgram_errors (fuel : Nat) (p : Parser) (r : Program × Parser)
    (h : Parser.ParseProgram fuel p = some r) :
    ∃ added, r.2.errors = p.errors ++ added := by
  unfold Parser.ParseProgram at h
  cases hl : Parser.parseLoop fuel p [] with
  | none => simp [hl] at h
  | some x =>
    simp only [hl, Option.some.injEq] at h
    subst h
    exact parseLoop_errors fuel p [] x hl

/-! ## The parser over a stream -/

theorem stateAt_curToken (toks : List Token) (n : Nat) (errs : List String) :
    (stateAt toks n errs).curToken = tokenAt toks n := rfl

theorem stateAt_peekToken (toks : List Token) (n : Nat) (errs : List String) :
    (stateAt toks n errs).peekToken = tokenAt toks (n + 1) := rfl

theorem peekError_stateAt (toks : List Token) (n : Nat) (errs : List String)
    (k : TokenType) :
    (stateAt toks n errs).peekError k =
      stateAt toks n (errs ++ ["expected next token to be '" ++ k ++ "', got '" ++
        (tokenAt toks (n + 1)).Typ ++ "' instead"]) := rfl

theorem tokenAt_of_le (toks : List Token) (i : Nat) (h : toks.length ≤ i) :
    tokenAt toks i = eofToken := by
  simp [tokenAt, List.getD_eq_getElem?_getD, List.getElem?_eq_none h]

theorem lt_of_tokenAt_ne_EOF (toks : List Token) (i : Nat)
    (h : (tokenAt toks i).Typ ≠ token.EOF) : i < toks.length := by
  by_contra hlt
  exact h (by rw [tokenAt_of_le toks i (by omega)]; rfl)

theorem advance_stateAt (toks : List Token) (n k : Nat) (errs : List String) :
    advance (stateAt toks n errs) k = stateAt toks (n + k) errs := by
  induction k generalizing n with
  | zero => rfl
  | succ k ih => rw [advance, nextToken_stateAt, ih]; congr 1; omega

/-- When the skipping loop stops over a stream, it stands on a terminator at or after the
index it started from, and the diagnostics are unchanged. -/
theorem skipToSemicolon_stateAt (fuel : Nat) (toks : List Token) (n : Nat)
    (errs : List String) (q : Parser)
    (h : Parser.skipToSemicolon fuel (stateAt toks n errs) = some q) :
    ∃ m, n ≤ m ∧ q = stateAt toks m errs ∧ (tokenAt toks m).Typ = token.SEMICOLON := by
  obtain ⟨k, hk, hsemi, _⟩ := skipToSemicolon_advance fuel _ q h
  rw [advance_stateAt] at hk
  refine ⟨n + k, by omega, hk, ?_⟩
  rw [hk] at hsemi
  exact hsemi

/-- With a terminator at index `j` ahead and fuel above the distance to it, the skipping
loop stops, at or before `j`. -/
theorem skipToSemicolon_stateAt_some (toks : List Token) (errs : List String)
    (fuel n j : Nat) (hj : n ≤ j) (hs : (tokenAt toks j).Typ = token.SEMICOLON)
    (hf : j - n < fuel) :
    ∃ m, n ≤ m ∧ m ≤ j ∧
      Parser.skipToSemicolon fuel (stateAt toks n errs) = some (stateAt toks m errs) := by
  induction fuel generalizing n with
  | zero => omega
  | succ f ih =>
    rw [Parser.skipToSemicolon]
    by_cases hc : (tokenAt toks n).Typ = token.SEMICOLON
    · exact ⟨n, Nat.le_refl n, hj, by simp [Parser.curTokenIs, stateAt_curToken, hc]⟩
    · have hne : n ≠ j := fun e => hc (e ▸ hs)
      obtain ⟨m, h1, h2, h3⟩ := ih (n + 1) (by omega) (by omega)
      exact ⟨m, by omega, h2,
        by simp [Parser.curTokenIs, stateAt_curToken, hc, nextToken_stateAt, h3]⟩

/-- What `parseStatement` returns over a stream: the window has moved forward, every
message added is the diagnostic of a `let` that no identifier follows, and the interface
value, unless nil, retains the tokens that `NodeOf` describes. -/
theorem parseStatement_stateAt (fuel : Nat) (toks : List Token) (n : Nat)
    (errs : List String) (r : Option Statement × Parser)
    (h : Parser.parseStatement fuel (stateAt toks n errs) = some r) :
    ∃ m added, n ≤ m ∧ r.2 = stateAt toks m (errs ++ added) ∧
      (∀ msg ∈ added, LetDiagnostic toks msg) ∧ (∀ s, r.1 = some s → NodeOf toks s) := by
  unfold Parser.parseStatement at h
  by_cases h1 : (stateAt toks n errs).curToken.Typ = token.LET
  · rw [if_pos h1] at h
    have hlt : n < toks.length :=
      lt_of_tokenAt_ne_EOF toks n (by rw [← stateAt_curToken toks n errs, h1]; decide)
    by_cases hp : (stateAt toks n errs).peekToken.Typ = token.IDENT
    · rw [parseLetStatement_of_ident fuel _ hp, nextToken_stateAt] at h
      cases hs : Parser.skipToSemicolon fuel (stateAt toks (n + 1) errs) with
      | none => simp [hs] at h
      | some q =>
        obtain ⟨m, hm, hq, _⟩ := skipToSemicolon_stateAt fuel toks (n + 1) errs q hs
        simp only [hs, Option.map_some', Option.some.injEq] at h
        subst h
        refine ⟨m, [], by omega, by simpa using hq, by simp, ?_⟩
        intro s hs1
        simp only [Option.some.injEq] at hs1
        subst hs1
        exact ⟨n, hlt, rfl, h1, hp, rfl⟩
    · rw [parseLetStatement_of_not_ident fuel _ hp, peekError_stateAt] at h
      simp only [Option.some.injEq] at h
      subst h
      refine ⟨n, _, Nat.le_refl n, rfl, ?_, ?_⟩
      · intro msg hmsg
        rw [List.mem_singleton] at hmsg
        exact ⟨n, hlt, h1, hp, hmsg⟩
      · intro s hs1
        simp only [Option.some.injEq] at hs1
        subst hs1
        trivial
  · by_cases h2 : (stateAt toks n errs).curToken.Typ = token.RETURN
    · rw [if_neg h1, if_pos h2] at h
      have hlt : n < toks.length :=
        lt_of_tokenAt_ne_EOF toks n (by rw [← stateAt_curToken toks n errs, h2]; decide)
      rw [parseReturnStatement_eq, nextToken_stateAt] at h
      cases hs : Parser.skipToSemicolon fuel (stateAt toks (n + 1) errs) with
      | none => simp [hs] at h
      | some q =>
        obtain ⟨m, hm, hq, _⟩ := skipToSemicolon_stateAt fuel toks (n + 1) errs q hs
        simp only [hs, Option.map_some', Option.some.injEq] at h
        subst h
        refine ⟨m, [], by omega, by simpa using hq, by simp, ?_⟩
        intro s hs1
        simp only [Option.some.injEq] at hs1
        subst hs1
        exact ⟨n, hlt, rfl, h2⟩
    · rw [if_neg h1, if_neg h2] at h
      simp only [Option.some.injEq] at h
      subst h
      exact ⟨n, [], Nat.le_refl n, by simp, by simp, by simp⟩

/-- What the loop of `ParseProgram` returns over a stream: the statements it was given
followed by entries that `NodeOf` describes, and the diagnostics it was given followed by
diagnostics of `let` keywords that no identifier follows. -/
theorem parseLoop_stateAt (fuel : Nat) (toks : List Token) (n : Nat) (errs : List String)
    (acc : List Statement) (r : List Statement × Parser)
    (h : Parser.parseLoop fuel (stateAt toks n errs) acc = some r) :
    ∃ m added nodes, n ≤ m ∧ r = (acc ++ nodes, stateAt toks m (errs ++ added)) ∧
      (∀ msg ∈ added, LetDiagnostic toks msg) ∧ (∀ s ∈ nodes, NodeOf toks s) := by
  induction fuel generalizing n errs acc with
  | zero => simp [Parser.parseLoop] at h
  | succ f ih =>
    rw [Parser.parseLoop] at h
    by_cases hc : (stateAt toks n errs).curToken.Typ = token.EOF
    · simp only [ne_eq, hc, not_true_eq_false, if_false, Option.some.injEq] at h
      subst h
      exact ⟨n, [], [], Nat.le_refl n, by simp, by simp, by simp⟩
    · simp only [ne_eq, hc, not_false_eq_true, if_true] at h
      cases hs : Parser.parseStatement f (stateAt toks n errs) with
      | none => simp [hs] at h
      | some x =>
        obtain ⟨stmt, p1⟩ := x
        obtain ⟨m1, added1, hm1, hp1, hmsgs1, hnode1⟩ :=
          parseStatement_stateAt f toks n errs (stmt, p1) hs
        simp only at hp1 hnode1
        subst hp1
        simp only [hs, nextToken_stateAt] at h
        obtain ⟨m, added, nodes, hm, hr, hmsgs, hnodes⟩ := ih _ _ _ h
        cases stmt with
        | none =>
          refine ⟨m, added1 ++ added, nodes, by omega, by simpa using hr, ?_, hnodes⟩
          intro msg hmsg
          rcases List.mem_append.mp hmsg with hx | hx
          · exact hmsgs1 msg hx
          · exact hmsgs msg hx
        | some s0 =>
          refine ⟨m, added1 ++ added, s0 :: nodes, by omega, by simpa using hr, ?_, ?_⟩
          · intro msg hmsg
            rcases List.mem_append.mp hmsg with hx | hx
            · exact hmsgs1 msg hx
            · exact hmsgs msg hx
          · intro s hs0
            rcases List.mem_cons.mp hs0 with hx | hx
            · exact hx ▸ hnode1 s0 rfl
            · exact hnodes s hx

/-- Every entry of the program that `ParseProgram` returns over a stream retains the
tokens that `NodeOf` describes. -/
theorem ParseProgram_nodes (fuel : Nat) (toks : List Token) (r : Program × Parser)
    (h : Parser.ParseProgram fuel (New ⟨toks, 0⟩) = some r) :
    ∀ s ∈ r.1.Statements, NodeOf toks s := by
  unfold Parser.ParseProgram at h
  rw [New_eq_stateAt] at h
  cases hl : Parser.parseLoop fuel (stateAt toks 0 []) [] with
  | none => simp [hl] at h
  | some x =>
    obtain ⟨m, added, nodes, _, hr, _, hnodes⟩ := parseLoop_stateAt fuel toks 0 [] [] x hl
    simp only [hl, Option.some.injEq] at h
    subst h
    subst hr
    simpa using hnodes

/-- Every diagnostic that `ParseProgram` records over a stream is the diagnostic of a
`let` keyword that no identifier follows. -/
theorem ParseProgram_diagnostics (fuel : Nat) (toks : List Token) (r : Program × Parser)
    (h : Parser.ParseProgram fuel (New ⟨toks, 0⟩) = some r) :
    ∀ msg ∈ r.2.errors, LetDiagnostic toks msg := by
  unfold Parser.ParseProgram at h
  rw [New_eq_stateAt] at h
  cases hl : Parser.parseLoop fuel (stateAt toks 0 []) [] with
  | none => simp [hl] at h
  | some x =>
    obtain ⟨m, added, nodes, _, hr, hmsgs, _⟩ := parseLoop_stateAt fuel toks 0 [] [] x hl
    simp only [hl, Option.some.injEq] at h
    subst h
    subst hr
    simpa [stateAt] using hmsgs

/-! ## Termination over a stream -/

/-- Over a stream whose statements are terminated, `parseStatement` returns as soon as the
fuel covers the tokens ahead. -/
theorem parseStatement_terminates (toks : List Token) (hT : Terminated toks)
    (fuel n : Nat) (errs : List String) (hlt : n < toks.length)
    (hf : toks.length ≤ fuel + n) :
    ∃ r, Parser.parseStatement fuel (stateAt toks n errs) = some r := by
  unfold Parser.parseStatement
  by_cases h1 : (stateAt toks n errs).curToken.Typ = token.LET
  · rw [if_pos h1]
    by_cases hp : (stateAt toks n errs).peekToken.Typ = token.IDENT
    · obtain ⟨j, hj, hnj, hs⟩ := hT n hlt (Or.inr ⟨h1, hp⟩)
      obtain ⟨m, _, _, hskip⟩ := skipToSemicolon_stateAt_some toks errs fuel (n + 1) j
        (by omega) hs (by omega)
      rw [parseLetStatement_of_ident fuel _ hp, nextToken_stateAt, hskip]
      exact ⟨_, rfl⟩
    · rw [parseLetStatement_of_not_ident fuel _ hp]
      exact ⟨_, rfl⟩
  · by_cases h2 : (stateAt toks n errs).curToken.Typ = token.RETURN
    · rw [if_neg h1, if_pos h2]
      obtain ⟨j, hj, hnj, hs⟩ := hT n hlt (Or.inl h2)
      obtain ⟨m, _, _, hskip⟩ := skipToSemicolon_stateAt_some toks errs fuel (n + 1) j
        (by omega) hs (by omega)
      rw [parseReturnStatement_eq, nextToken_stateAt, hskip]
      exact ⟨_, rfl⟩
    · rw [if_neg h1, if_neg h2]
      exact ⟨_, rfl⟩

/-- Over a stream whose statements are terminated, the loop of `ParseProgram` returns as
soon as the fuel exceeds the number of tokens ahead. -/
theorem parseLoop_terminates (toks : List Token) (hT : Terminated toks)
    (fuel n : Nat) (errs : List String) (acc : List Statement) (h1 : 1 ≤ fuel)
    (hf : toks.length + 1 ≤ fuel + n) :
    ∃ r, Parser.parseLoop fuel (stateAt toks n errs) acc = some r := by
  induction fuel generalizing n errs acc with
  | zero => omega
  | succ f ih =>
    rw [Parser.parseLoop]
    by_cases hc : (stateAt toks n errs).curToken.Typ = token.EOF
    · exact ⟨(acc, stateAt toks n errs), by simp [hc]⟩
    · have hlt : n < toks.length := lt_of_tokenAt_ne_EOF toks n hc
      obtain ⟨⟨stmt, p1⟩, hs⟩ := parseStatement_terminates toks hT f n errs hlt (by omega)
      obtain ⟨m, added, hm, hp1, _, _⟩ := parseStatement_stateAt f toks n errs (stmt, p1) hs
      simp only at hp1
      subst hp1
      cases stmt with
      | none =>
        obtain ⟨r, hr⟩ := ih (m + 1) (errs ++ added) acc (by omega) (by omega)
        exact ⟨r, by
          simp only [ne_eq, hc, not_false_eq_true, if_true, hs, nextToken_stateAt, hr]⟩
      | some s =>
        obtain ⟨r, hr⟩ := ih (m + 1) (errs ++ added) (acc ++ [s]) (by omega) (by omega)
        exact ⟨r, by
          simp only [ne_eq, hc, not_false_eq_true, if_true, hs, nextToken_stateAt, hr]⟩

/-! ## Streams without a statement -/

theorem tokenAt_cons_succ (t : Token) (rest : List Token) (i : Nat) :
    tokenAt (t :: rest) (i + 1) = tokenAt rest i := by
  simp [tokenAt]

/-- Over tokens none of which is a `return` keyword or an end-of-input token, and where
no identifier follows a `let` keyword, the loop of `ParseProgram` appends one entry
wrapping a nil pointer and records one diagnostic for each `let` keyword. -/
theorem parseLoop_no_statement (rest pre : List Token) (errs : List String)
    (acc : List Statement) (fuel : Nat)
    (h1 : ∀ i, (tokenAt rest i).Typ = token.LET → (tokenAt rest (i + 1)).Typ ≠ token.IDENT)
    (h2 : ∀ t ∈ rest, t.Typ ≠ token.RETURN ∧ t.Typ ≠ token.EOF)
    (hf : rest.length < fuel) :
    ∃ msgs, msgs.length = rest.countP (fun t => decide (t.Typ = token.LET)) ∧
      Parser.parseLoop fuel (view pre rest errs) acc =
        some (acc ++ List.replicate (rest.countP (fun t => decide (t.Typ = token.LET)))
            (Statement.letStatement none),
          view (pre ++ rest) [] (errs ++ msgs)) := by
  induction rest generalizing pre errs acc fuel with
  | nil =>
    obtain ⟨f, rfl⟩ : ∃ f, fuel = f + 1 := ⟨fuel - 1, by simp at hf; omega⟩
    exact ⟨[], rfl, by simpa using parseLoop_end pre errs acc f⟩
  | cons t rest ih =>
    obtain ⟨f, rfl⟩ : ∃ f, fuel = f + 1 := ⟨fuel - 1, by omega⟩
    have hf1 : rest.length < f := by simp only [List.length_cons] at hf; omega
    have ht := h2 t (by simp)
    have h2r : ∀ u ∈ rest, u.Typ ≠ token.RETURN ∧ u.Typ ≠ token.EOF :=
      fun u hu => h2 u (by simp [hu])
    have h1r : ∀ i, (tokenAt rest i).Typ = token.LET →
        (tokenAt rest (i + 1)).Typ ≠ token.IDENT := by
      intro i hi
      have := h1 (i + 1) (by rw [tokenAt_cons_succ]; exact hi)
      rwa [tokenAt_cons_succ] at this
    by_cases hl : t.Typ = token.LET
    · have hpeek : (rest.getD 0 eofToken).Typ ≠ token.IDENT := by
        have := h1 0 (by simpa [tokenAt] using hl)
        rwa [tokenAt_cons_succ] at this
      obtain ⟨msgs, hlen, hrec⟩ := ih (pre ++ [t])
        (errs ++ [unexpected token.IDENT (rest.getD 0 eofToken).Typ])
        (acc ++ [Statement.letStatement none]) f h1r h2r hf1
      refine ⟨unexpected token.IDENT (rest.getD 0 eofToken).Typ :: msgs, ?_, ?_⟩
      · simp [List.countP_cons, hl, hlen]
      · rw [parseLoop_let_malformed t pre rest errs acc f hl hpeek, hrec]
        simp [List.countP_cons, hl, List.replicate_succ]
    · obtain ⟨msgs, hlen, hrec⟩ := ih (pre ++ [t]) errs acc f h1r h2r hf1
      refine ⟨msgs, ?_, ?_⟩
      · simp [List.countP_cons, hl, hlen]
      · rw [parseLoop_other t pre rest errs acc f hl ht.1 ht.2, hrec]
        simp [List.countP_cons, hl]

/-- `ParseProgram` over a stream that holds no `return` keyword and no `let` keyword
followed by an identifier: it returns once the fuel exceeds the number of tokens; the
statement sequence has one entry wrapping a nil pointer for each `let` keyword, and
there is one diagnostic for each `let` keyword. -/
theorem ParseProgram_no_statement (toks : List Token) (fuel : Nat)
    (h1 : ∀ i, (tokenAt toks i).Typ = token.LET → (tokenAt toks (i + 1)).Typ ≠ token.IDENT)
    (h2 : ∀ t ∈ toks, t.Typ ≠ token.RETURN ∧ t.Typ ≠ token.EOF)
    (hf : toks.length < fuel) :
    ∃ p, Parser.ParseProgram fuel (New ⟨toks, 0⟩) =
        some (⟨List.replicate (toks.countP (fun t => decide (t.Typ = token.LET)))
          (Statement.letStatement none)⟩, p) ∧
      p.errors.length = toks.countP (fun t => decide (t.Typ = token.LET)) := by
  obtain ⟨msgs, hlen, h⟩ := parseLoop_no_statement toks [] [] [] fuel h1 h2 hf
  refine ⟨view toks [] msgs, ?_, by simpa [view_errors] using hlen⟩
  simp only [List.nil_append] at h
  simp [Parser.ParseProgram, New_eq_view, h]

/-! ## The claims -/

/-- C1: for every sequence of well-formed let statements followed by end-of-input,
`ParseProgram` on the parser built by `New` returns, once the fuel exceeds the number of
tokens, a program with exactly one statement per let statement, in order, each a
`LetStatement` that keeps its `let` token and whose name keeps the identifier token and
has that token's literal as value; no diagnostic is recorded. -/
theorem ParseProgram_let_statements (ss : List LetSource) (h : ∀ s ∈ ss, s.WellFormed)
    (fuel : Nat) (hf : (ss.flatMap LetSource.tokens).length < fuel) :
    ∃ p, Parser.ParseProgram fuel (New ⟨ss.flatMap LetSource.tokens, 0⟩) =
        some ({ Statements := ss.map (fun s => Statement.letStatement
          (some { Token := s.kw, Name := some { Token := s.name, Value := s.name.Literal },
                  Value := none })) }, p) ∧
      p.Errors = [] := by
  have hw : ∀ u ∈ ss.map StmtSource.letS, u.WellFormed := by
    intro u hu
    obtain ⟨s, hs, rfl⟩ := List.mem_map.mp hu
    exact h s hs
  have h1 := ParseProgram_sources (ss.map StmtSource.letS) hw fuel
    (by rw [flatMap_letS]; exact hf)
  rw [flatMap_letS, List.map_map] at h1
  exact ⟨_, h1, rfl⟩

/-- C1, on the input `let x = 100; let y = 10; let result = true;`. -/
theorem ParseProgram_let_statements_witness :
    (∀ s ∈ letExample, s.WellFormed) ∧ (letExample.flatMap LetSource.tokens).length < 16 ∧
    ∃ p, Parser.ParseProgram 16 (New ⟨letExample.flatMap LetSource.tokens, 0⟩) =
        some ({ Statements := letExample.map (fun s => Statement.letStatement
          (some { Token := s.kw, Name := some { Token := s.name, Value := s.name.Literal },
                  Value := none })) }, p) ∧
      p.Errors = [] :=
  ⟨by decide, by decide, ParseProgram_let_statements letExample (by decide) 16 (by decide)⟩

/-- C2: for every sequence of well-formed return statements followed by end-of-input,
`ParseProgram` on the parser built by `New` returns, once the fuel exceeds the number of
tokens, a program with exactly one statement per return statement, in order, each a
`ReturnStatement` that keeps its `return` token; no diagnostic is recorded. -/
theorem ParseProgram_return_statements (ss : List ReturnSource)
    (h : ∀ s ∈ ss, s.WellFormed) (fuel : Nat)
    (hf : (ss.flatMap ReturnSource.tokens).length < fuel) :
    ∃ p, Parser.ParseProgram fuel (New ⟨ss.flatMap ReturnSource.tokens, 0⟩) =
        some ({ Statements := ss.map (fun s => Statement.returnStatement
          (some { Token := s.kw, ReturnValue := none })) }, p) ∧
      p.Errors = [] := by
  have hw : ∀ u ∈ ss.map StmtSource.returnS, u.WellFormed := by
    intro u hu
    obtain ⟨s, hs, rfl⟩ := List.mem_map.mp hu
    exact h s hs
  have h1 := ParseProgram_sources (ss.map StmtSource.returnS) hw fuel
    (by rw [flatMap_returnS]; exact hf)
  rw [flatMap_returnS, List.map_map] at h1
  exact ⟨_, h1, rfl⟩

/-- C2, on the input `return 5; return a; return 5123;`. -/
theorem ParseProgram_return_statements_witness :
    (∀ s ∈ returnExample, s.WellFormed) ∧
    (returnExample.flatMap ReturnSource.tokens).length < 10 ∧
    ∃ p, Parser.ParseProgram 10 (New ⟨returnExample.flatMap ReturnSource.tokens, 0⟩) =
        some ({ Statements := returnExample.map (fun s => Statement.returnStatement
          (some { Token := s.kw, ReturnValue := none })) }, p) ∧
      p.Errors = [] :=
  ⟨by decide, by decide,
    ParseProgram_return_statements returnExample (by decide) 10 (by decide)⟩

/-- C3, as amended: for every sequence of malformed let statements in which no token
between a `let` keyword and its terminator is a `let` keyword or an end-of-input token,
`ParseProgram` on the parser built by `New` returns, once the fuel exceeds the number of
tokens, and has recorded exactly one diagnostic per statement. -/
theorem ParseProgram_malformed_lets (ss : List MalformedLet)
    (h : ∀ s ∈ ss, s.Shape ∧ s.Plain) (fuel : Nat)
    (hf : (ss.flatMap MalformedLet.tokens).length < fuel) :
    ∃ prog p, Parser.ParseProgram fuel (New ⟨ss.flatMap MalformedLet.tokens, 0⟩) =
        some (prog, p) ∧
      p.Errors.length = ss.length := by
  obtain ⟨acc, msgs, hmsgs, h1⟩ := parseLoop_malformed ss h [] [] [] fuel hf
  refine ⟨{ Statements := acc }, view (ss.flatMap MalformedLet.tokens) [] msgs, ?_, ?_⟩
  · simp only [List.nil_append] at h1
    simp [Parser.ParseProgram, New_eq_view, h1]
  · simpa [Parser.Errors, view_errors] using hmsgs

/-- C3 as amended, on the input `let 8999; let 1 = a; let = 5;`: three diagnostics. -/
theorem ParseProgram_malformed_lets_witness :
    (∀ s ∈ malformedExample, s.Shape ∧ s.Plain) ∧
    (malformedExample.flatMap MalformedLet.tokens).length < 13 ∧
    ∃ prog p, Parser.ParseProgram 13 (New ⟨malformedExample.flatMap MalformedLet.tokens, 0⟩) =
        some (prog, p) ∧
      p.Errors.length = 3 :=
  ⟨by decide, by decide, ParseProgram_malformed_lets malformedExample (by decide) 13 (by decide)⟩

/-- C3 fails on `let let ;`: this single statement has the form that the claim describes,
`ParseProgram` records two diagnostics for it, not one, and the statement sequence of the
returned program has two entries, each wrapping a nil pointer. -/
theorem ParseProgram_malformed_counterexample :
    letLetExample.Shape ∧
    (Parser.ParseProgram 4 (New ⟨[letLetExample].flatMap MalformedLet.tokens, 0⟩)).map
        (fun r => (r.1.Statements, r.2.Errors.length)) =
      some ([Statement.letStatement none, Statement.letStatement none], 2) := by
  decide

/-- C4 fails on the input `return`: no fuel is enough, the loop that looks for the
terminator never stops on the end-of-input tokens that the source keeps yielding. -/
theorem ParseProgram_return_without_terminator (fuel : Nat) :
    Parser.ParseProgram fuel (New ⟨[⟨token.RETURN, "return"⟩], 0⟩) = none := by
  cases fuel with
  | zero => rfl
  | succ f =>
    have hskip : Parser.skipToSemicolon f (stateAt [⟨token.RETURN, "return"⟩] 1 []) = none := by
      apply skipToSemicolon_stateAt_none
      intro i hi
      obtain ⟨j, rfl⟩ : ∃ j, i = j + 1 := ⟨i - 1, by omega⟩
      simp [eofToken, EOF_ne_SEMICOLON]
    have hcur : (stateAt [⟨token.RETURN, "return"⟩] 0 []).curToken.Typ = token.RETURN := rfl
    simp [Parser.ParseProgram, New_eq_stateAt, Parser.parseLoop, Parser.parseStatement,
      Parser.parseReturnStatement, hcur, RETURN_ne_EOF, RETURN_ne_LET, nextToken_stateAt, hskip]

/-- C5 fails on every single identifier: the dispatcher has no case for it, so the
returned program has no statement; no diagnostic is recorded. -/
theorem ParseProgram_identifier (t : String) (fuel : Nat) :
    ∃ p, Parser.ParseProgram (fuel + 2) (New ⟨[⟨token.IDENT, t⟩], 0⟩) =
        some ({ Statements := [] }, p) ∧
      p.Errors = [] := by
  have h1 := parseLoop_other ⟨token.IDENT, t⟩ [] [] [] [] (fuel + 1)
    (show token.IDENT ≠ token.LET by decide) (show token.IDENT ≠ token.RETURN by decide)
    (show token.IDENT ≠ token.EOF by decide)
  have h2 := parseLoop_end [⟨token.IDENT, t⟩] [] [] fuel
  simp only [List.nil_append] at h1
  exact ⟨view [⟨token.IDENT, t⟩] [] [],
    by simp [Parser.ParseProgram, New_eq_view, h1, h2], rfl⟩

/-- C6 fails on every integer literal followed by a terminator: the dispatcher has no case
for either token, so the returned program has no statement; no diagnostic is recorded. -/
theorem ParseProgram_integer_literal (t : String) (fuel : Nat) :
    ∃ p, Parser.ParseProgram (fuel + 3)
          (New ⟨[⟨token.INT, t⟩, ⟨token.SEMICOLON, ";"⟩], 0⟩) =
        some ({ Statements := [] }, p) ∧
      p.Errors = [] := by
  have h1 := parseLoop_other ⟨token.INT, t⟩ [] [⟨token.SEMICOLON, ";"⟩] [] [] (fuel + 2)
    (show token.INT ≠ token.LET by decide) (show token.INT ≠ token.RETURN by decide)
    (show token.INT ≠ token.EOF by decide)
  have h2 := parseLoop_other ⟨token.SEMICOLON, ";"⟩ [⟨token.INT, t⟩] [] [] [] (fuel + 1)
    (by decide) (by decide) (by decide)
  have h3 := parseLoop_end [⟨token.INT, t⟩, ⟨token.SEMICOLON, ";"⟩] [] [] fuel
  simp only [List.nil_append, List.singleton_append] at h1 h2
  exact ⟨view [⟨token.INT, t⟩, ⟨token.SEMICOLON, ";"⟩] [] [],
    by simp [Parser.ParseProgram, New_eq_view, h1, h2, h3], rfl⟩

/-- C7: `expectPeek k` returns true exactly when the kind of the peek token is `k`. When
it returns true the state is the one after one `nextToken` (the current token is the old
peek token, one token has been drawn) and the diagnostics are unchanged. When it returns
false the current token, the peek token and the source are unchanged and the diagnostics
are the old ones followed by exactly one message. -/
theorem expectPeek_spec (p : Parser) (k : TokenType) :
    ((p.expectPeek k).1 = true ↔ p.peekToken.Typ = k) ∧
    (((p.expectPeek k).1 = true ∧ (p.expectPeek k).2 = p.nextToken ∧
        (p.expectPeek k).2.curToken = p.peekToken ∧
        (p.expectPeek k).2.peekToken = p.l.NextToken.1 ∧
        (p.expectPeek k).2.l = p.l.NextToken.2 ∧
        (p.expectPeek k).2.Errors = p.Errors) ∨
      ((p.expectPeek k).1 = false ∧ (p.expectPeek k).2.curToken = p.curToken ∧
        (p.expectPeek k).2.peekToken = p.peekToken ∧
        (p.expectPeek k).2.l = p.l ∧
        ∃ msg, (p.expectPeek k).2.Errors = p.Errors ++ [msg])) := by
  by_cases h : p.peekToken.Typ = k
  · simp [Parser.expectPeek, Parser.peekTokenIs, h, Parser.nextToken, Parser.Errors]
  · simp [Parser.expectPeek, Parser.peekTokenIs, h, Parser.peekError, Parser.Errors]

/-- C8: when the kind of the peek token is not `k`, the message that `expectPeek k`
appends is the text below, built from `k` and from the kind of the peek token. -/
theorem expectPeek_message (p : Parser) (k : TokenType) (h : p.peekToken.Typ ≠ k) :
    (p.expectPeek k).2.Errors =
      p.Errors ++
        ["expected next token to be '" ++ k ++ "', got '" ++ p.peekToken.Typ ++ "' instead"] := by
  simp [Parser.expectPeek, Parser.peekTokenIs, h, Parser.peekError, Parser.Errors]

/-- C8, on the parser over `let 8999` (current token `let`, peek token `8999`) with the
identifier kind expected: the message names the kind of the peek token. -/
theorem expectPeek_message_witness :
    peekExample.peekToken.Typ ≠ token.IDENT ∧
    peekExample.curToken.Typ = token.LET ∧
    peekExample.Errors ++ ["expected next token to be '" ++ token.IDENT ++ "', got '" ++
        peekExample.peekToken.Typ ++ "' instead"] =
      ["expected next token to be 'IDENT', got 'INT' instead"] ∧
    (peekExample.expectPeek token.IDENT).2.Errors =
      peekExample.Errors ++ ["expected next token to be '" ++ token.IDENT ++ "', got '" ++
        peekExample.peekToken.Typ ++ "' instead"] :=
  ⟨by decide, by decide, by decide, expectPeek_message peekExample token.IDENT (by decide)⟩

/-- C9: after `New` and `N` calls of `nextToken` the current token is the `(N+1)`-th token
that the source yields and the peek token the `(N+2)`-th, the source has been drawn from
exactly `N+2` times, and there is no diagnostic. -/
theorem New_advance_window (l : Lexer) (N : Nat) :
    (advance (New l) N).curToken = yielded l N ∧
    (advance (New l) N).peekToken = yielded l (N + 1) ∧
    (advance (New l) N).l = drawn l (N + 2) ∧
    (advance (New l) N).l.position = l.position + (N + 2) ∧
    (advance (New l) N).Errors = [] := by
  have h : advance (New l) N = advance (Parser.literal l) (N + 2) := by
    rw [New_eq_advance, advance_add, Nat.add_comm]
  refine ⟨?_, ?_, ?_, ?_, ?_⟩
  · rw [h, advance_curToken]; rfl
  · rw [h, advance_peekToken (Parser.literal l) (N + 1)]; rfl
  · rw [h, advance_l]; rfl
  · rw [h, advance_l, drawn_eq]; rfl
  · rw [h, Parser.Errors, advance_errors]; rfl

/-- C10: on the empty token stream `ParseProgram` returns, with any fuel but zero, a
program whose statement sequence is empty, and there is no diagnostic. -/
theorem ParseProgram_empty (fuel : Nat) :
    ∃ p, Parser.ParseProgram (fuel + 1) (New ⟨[], 0⟩) = some ({ Statements := [] }, p) ∧
      p.Errors = [] := by
  have h := parseLoop_end [] [] [] fuel
  exact ⟨view [] [] [], by simp [Parser.ParseProgram, New_eq_view, h], rfl⟩

/-- C11 fails on every parser built by `New`: `New` leaves both maps nil, so the
assignment to a map entry in `registerPrefix` and in `registerInfix` is a run-time
panic, whatever the kind and the handler. -/
theorem register_after_New (l : Lexer) (k : TokenType) (fn : prefixParseFn)
    (gn : infixParseFn) :
    (New l).prefixParseFns = none ∧ (New l).infixParseFns = none ∧
    (New l).registerPrefix k fn = none ∧ (New l).registerInfix k gn = none := by
  simp [New, Parser.literal, Parser.nextToken, Parser.registerPrefix, Parser.registerInfix]

/-- C13, as amended: when `parseLetStatement` or `parseReturnStatement` returns a node,
the state is the starting state after some number `k ≥ 1` of `nextToken` calls, the
current token is a terminator, no current token in between was one, and the diagnostics
are unchanged: the call stops on the terminator and does not consume it. -/
theorem parse_stops_on_terminator (fuel : Nat) (p q : Parser)
    (h : (∃ stmt, Parser.parseLetStatement fuel p = some (some stmt, q)) ∨
      (∃ stmt, Parser.parseReturnStatement fuel p = some (some stmt, q))) :
    ∃ k, 1 ≤ k ∧ q = advance p k ∧ q.curToken.Typ = token.SEMICOLON ∧
      (∀ j, 1 ≤ j → j < k → (advance p j).curToken.Typ ≠ token.SEMICOLON) ∧
      q.Errors = p.Errors := by
  have hskip : Parser.skipToSemicolon fuel p.nextToken = some q := by
    rcases h with ⟨stmt, h⟩ | ⟨stmt, h⟩
    · by_cases hp : p.peekToken.Typ = token.IDENT
      · rw [parseLetStatement_of_ident fuel p hp] at h
        cases hs : Parser.skipToSemicolon fuel p.nextToken with
        | none => simp [hs] at h
        | some q1 =>
          simp only [hs, Option.map_some', Option.some.injEq, Prod.mk.injEq] at h
          rw [h.2]
      · rw [parseLetStatement_of_not_ident fuel p hp] at h
        simp at h
    · rw [parseReturnStatement_eq] at h
      cases hs : Parser.skipToSemicolon fuel p.nextToken with
      | none => simp [hs] at h
      | some q1 =>
        simp only [hs, Option.map_some', Option.some.injEq, Prod.mk.injEq] at h
        rw [h.2]
  obtain ⟨k, hk, hsemi, hbefore⟩ := skipToSemicolon_advance fuel p.nextToken q hskip
  refine ⟨k + 1, by omega, hk, hsemi, ?_, ?_⟩
  · intro j h1 hj
    obtain ⟨i, rfl⟩ : ∃ i, j = i + 1 := ⟨j - 1, by omega⟩
    exact hbefore i (by omega)
  · rw [Parser.Errors, skipToSemicolon_errors fuel p.nextToken q hskip]
    rfl

/-- C13 as amended, on `return 5; x`: the call returns a node after two `nextToken`
calls, on the terminator. -/
theorem parse_stops_on_terminator_witness :
    Parser.parseReturnStatement 2 (New ⟨returnThenIdent, 0⟩) =
      some (some { Token := ⟨token.RETURN, "return"⟩, ReturnValue := none },
        advance (New ⟨returnThenIdent, 0⟩) 2) ∧
    ∃ k, 1 ≤ k ∧ advance (New ⟨returnThenIdent, 0⟩) 2 = advance (New ⟨returnThenIdent, 0⟩) k ∧
      (advance (New ⟨returnThenIdent, 0⟩) 2).curToken.Typ = token.SEMICOLON ∧
      (∀ j, 1 ≤ j → j < k →
        (advance (New ⟨returnThenIdent, 0⟩) j).curToken.Typ ≠ token.SEMICOLON) ∧
      (advance (New ⟨returnThenIdent, 0⟩) 2).Errors = (New ⟨returnThenIdent, 0⟩).Errors :=
  ⟨by decide,
    parse_stops_on_terminator 2 (New ⟨returnThenIdent, 0⟩)
      (advance (New ⟨returnThenIdent, 0⟩) 2)
      (Or.inr ⟨{ Token := ⟨token.RETURN, "return"⟩, ReturnValue := none }, by decide⟩)⟩

/-- C13 fails on `return 5; x` and on `let y = 5; x`: each call returns a node, and on
return the current token is the terminator `;` while the token that follows the
terminator, `x`, is still the peek token. -/
theorem parse_stops_on_terminator_counterexample :
    (Parser.parseReturnStatement 2 (New ⟨returnThenIdent, 0⟩)).map
        (fun r => (r.1.isSome, r.2.curToken, r.2.peekToken)) =
      some (true, ⟨token.SEMICOLON, ";"⟩, ⟨token.IDENT, "x"⟩) ∧
    (Parser.parseLetStatement 4 (New ⟨letThenIdent, 0⟩)).map
        (fun r => (r.1.isSome, r.2.curToken, r.2.peekToken)) =
      some (true, ⟨token.SEMICOLON, ";"⟩, ⟨token.IDENT, "x"⟩) := by
  decide

/-- C14: when the kind of the current token is neither `LET` nor `RETURN`,
`parseStatement` returns the nil interface and the state it was given, with any fuel. -/
theorem parseStatement_default (fuel : Nat) (p : Parser)
    (h1 : p.curToken.Typ ≠ token.LET) (h2 : p.curToken.Typ ≠ token.RETURN) :
    Parser.parseStatement fuel p = some (none, p) := by
  unfold Parser.parseStatement
  rw [if_neg h1, if_neg h2]

/-- C14, on the parser over `5;`, whose current token is the integer literal. -/
theorem parseStatement_default_witness :
    intExample.curToken.Typ ≠ token.LET ∧ intExample.curToken.Typ ≠ token.RETURN ∧
    Parser.parseStatement 0 intExample = some (none, intExample) :=
  ⟨by decide, by decide, parseStatement_default 0 intExample (by decide) (by decide)⟩

/-- C15: each of `nextToken`, `expectPeek`, `parseStatement`, `parseLetStatement`,
`parseReturnStatement` and `ParseProgram`, from any state from which it returns, leaves a
diagnostics list that is the list before the call followed by what the call added. -/
theorem errors_append_only :
    (∀ p : Parser, ∃ added, p.nextToken.Errors = p.Errors ++ added) ∧
    (∀ (p : Parser) (k : TokenType), ∃ added, (p.expectPeek k).2.Errors = p.Errors ++ added) ∧
    (∀ (fuel : Nat) (p : Parser) (r : Option Statement × Parser),
      Parser.parseStatement fuel p = some r → ∃ added, r.2.Errors = p.Errors ++ added) ∧
    (∀ (fuel : Nat) (p : Parser) (r : Option LetStatement × Parser),
      Parser.parseLetStatement fuel p = some r → ∃ added, r.2.Errors = p.Errors ++ added) ∧
    (∀ (fuel : Nat) (p : Parser) (r : Option ReturnStatement × Parser),
      Parser.parseReturnStatement fuel p = some r →
        ∃ added, r.2.Errors = p.Errors ++ added) ∧
    (∀ (fuel : Nat) (p : Parser) (r : Program × Parser),
      Parser.ParseProgram fuel p = some r → ∃ added, r.2.Errors = p.Errors ++ added) :=
  ⟨fun _ => ⟨[], by simp [Parser.Errors, Parser.nextToken]⟩,
   fun p k => expectPeek_errors p k,
   fun fuel p r h => parseStatement_errors fuel p r h,
   fun fuel p r h => parseLetStatement_errors fuel p r h,
   fun fuel p r h => ⟨[], by simp [Parser.Errors, parseReturnStatement_errors fuel p r h]⟩,
   fun fuel p r h => ParseProgram_errors fuel p r h⟩

/-- C15, on the parser over `let 8999`: `parseStatement` returns there, and the list after
the call is the list before it followed by one message. -/
theorem errors_append_only_witness :
    Parser.parseStatement 0 peekExample =
      some (some (Statement.letStatement none), peekExample.peekError token.IDENT) ∧
    ∃ added, (peekExample.peekError token.IDENT).Errors = peekExample.Errors ++ added :=
  ⟨by decide, errors_append_only.2.2.1 0 peekExample
    (some (Statement.letStatement none), peekExample.peekError token.IDENT) (by decide)⟩

/-- C12 fails on `let = 5;`: the statement sequence of the returned program has one
entry, of dynamic type `*ast.LetStatement`, whose pointer is nil, so this let statement
has no token and no name. -/
theorem ParseProgram_nil_let_entry :
    (Parser.ParseProgram 5 (New ⟨letAssignExample, 0⟩)).map (fun r => r.1.Statements) =
      some [Statement.letStatement none] := by
  decide

/-- C16: every diagnostic that `ParseProgram` has recorded when it returns, on the parser
built by `New` over a stream, is the message of the expect check for the identifier
kind, with the kind of the token that follows a `let` keyword of the stream and is not
an identifier (the end-of-input token when the keyword is the last token). -/
theorem diagnostics_of_lets (toks : List Token) (fuel : Nat) (r : Program × Parser)
    (h : Parser.ParseProgram fuel (New ⟨toks, 0⟩) = some r) :
    ∀ msg ∈ r.2.Errors, ∃ i, i < toks.length ∧ (tokenAt toks i).Typ = token.LET ∧
      (tokenAt toks (i + 1)).Typ ≠ token.IDENT ∧
      msg = "expected next token to be '" ++ token.IDENT ++ "', got '" ++
        (tokenAt toks (i + 1)).Typ ++ "' instead" :=
  ParseProgram_diagnostics fuel toks r h

/-- C16, on `let 5`: the only diagnostic names the kind of the integer literal. -/
theorem diagnostics_of_lets_witness :
    Parser.ParseProgram 3 (New ⟨letIntExample, 0⟩) =
      some ({ Statements := [Statement.letStatement none] },
        stateAt letIntExample 2 ["expected next token to be 'IDENT', got 'INT' instead"]) ∧
    ∀ msg ∈ (stateAt letIntExample 2
        ["expected next token to be 'IDENT', got 'INT' instead"]).Errors,
      ∃ i, i < letIntExample.length ∧ (tokenAt letIntExample i).Typ = token.LET ∧
        (tokenAt letIntExample (i + 1)).Typ ≠ token.IDENT ∧
        msg = "expected next token to be '" ++ token.IDENT ++ "', got '" ++
          (tokenAt letIntExample (i + 1)).Typ ++ "' instead" :=
  ⟨by decide,
    diagnostics_of_lets letIntExample 3
      ({ Statements := [Statement.letStatement none] },
        stateAt letIntExample 2 ["expected next token to be 'IDENT', got 'INT' instead"])
      (by decide)⟩

/-- C17: over every stream in which each `return` keyword, and each `let` keyword that an
identifier follows, has a terminator somewhere after it, `ParseProgram` on the parser
built by `New` returns as soon as the fuel exceeds the number of tokens. -/
theorem ParseProgram_terminates (toks : List Token) (hT : Terminated toks) (fuel : Nat)
    (hf : toks.length < fuel) :
    ∃ r, Parser.ParseProgram fuel (New ⟨toks, 0⟩) = some r := by
  obtain ⟨x, hx⟩ := parseLoop_terminates toks hT fuel 0 [] [] (by omega) (by omega)
  exact ⟨({ Statements := x.1 }, x.2), by simp [Parser.ParseProgram, New_eq_stateAt, hx]⟩

/-- C17, on `let 5 return x; foo let y = 1;`. -/
theorem ParseProgram_terminates_witness :
    Terminated terminatedExample ∧ terminatedExample.length < 12 ∧
    ∃ r, Parser.ParseProgram 12 (New ⟨terminatedExample, 0⟩) = some r :=
  ⟨by decide, by decide, ParseProgram_terminates terminatedExample (by decide) 12 (by decide)⟩

/-- C18: for every sequence of well-formed let and return statements, in any interleaving,
followed by end-of-input, `ParseProgram` on the parser built by `New` returns, once the
fuel exceeds the number of tokens, a program with exactly one node per statement, in
order: a `LetStatement` with the declared name for a let statement, a `ReturnStatement`
for a return statement; keywords inside a body give no node, and no diagnostic is
recorded. -/
theorem ParseProgram_mixed_statements (ss : List StmtSource) (h : ∀ s ∈ ss, s.WellFormed)
    (fuel : Nat) (hf : (ss.flatMap StmtSource.tokens).length < fuel) :
    ∃ p, Parser.ParseProgram fuel (New ⟨ss.flatMap StmtSource.tokens, 0⟩) =
        some ({ Statements := ss.map StmtSource.node }, p) ∧
      p.Errors = [] :=
  ⟨_, ParseProgram_sources ss h fuel hf, rfl⟩

/-- C18, on `let x = return let; return let y; let z = 1;`: three nodes, although five
keywords occur. -/
theorem ParseProgram_mixed_statements_witness :
    (∀ s ∈ mixedExample, s.WellFormed) ∧
    (mixedExample.flatMap StmtSource.tokens).length < 16 ∧
    (mixedExample.map StmtSource.node).length = 3 ∧
    ∃ p, Parser.ParseProgram 16 (New ⟨mixedExample.flatMap StmtSource.tokens, 0⟩) =
        some ({ Statements := mixedExample.map StmtSource.node }, p) ∧
      p.Errors = [] :=
  ⟨by decide, by decide, by decide,
    ParseProgram_mixed_statements mixedExample (by decide) 16 (by decide)⟩

/-- C19 fails on `let 5;`: no `let` is followed by an identifier and there is no `return`,
`ParseProgram` returns and has recorded one diagnostic for the one `let`, but the
statement sequence of the returned program has one entry, not zero. -/
theorem ParseProgram_let_without_identifier :
    (Parser.ParseProgram 4 (New ⟨letFiveExample, 0⟩)).map
        (fun r => (r.1.Statements, r.1.Statements.length, r.2.Errors.length)) =
      some ([Statement.letStatement none], 1, 1) := by
  decide

end parser
